import Mathlib

/-!
# Verification of the serde-sqlite-jsonb codec

A shallow embedding of the SQLite JSONB encoder and decoder from the
`serde-sqlite-jsonb` repository (src/header.rs, src/ser.rs, src/de.rs,
src/error.rs), together with proofs about header minimality, round-trips,
error behaviour and the integer-narrowing logic of `deserialize_any`.

Byte streams are modelled as `List Nat` with every element in `0..255`;
stateful readers become functions returning the decoded result together
with the not-yet-consumed suffix of the stream.
-/

set_option maxHeartbeats 1000000

namespace SqliteJsonb

/-- The 16 element types of the JSONB format (header.rs, `enum ElementType`).
The fork defines code 0xF as `BinaryFloat` ("Binary Float of IEEE 754 in
little-endian"); the stale `de.rs` still refers to that code by the upstream
name `Reserved15`. -/
inductive ElementType
  | null
  | true
  | false
  | int
  | int5
  | float
  | float5
  | text
  | textJ
  | text5
  | textRaw
  | array
  | object
  | reserved13
  | reserved14
  | binaryFloat
deriving DecidableEq, Repr, Fintype

/-- The numeric code of each element type (header.rs, `impl From<ElementType> for u8`). -/
def ElementType.code : ElementType → Nat
  | .null => 0
  | .true => 1
  | .false => 2
  | .int => 3
  | .int5 => 4
  | .float => 5
  | .float5 => 6
  | .text => 7
  | .textJ => 8
  | .text5 => 9
  | .textRaw => 0xA
  | .array => 0xB
  | .object => 0xC
  | .reserved13 => 0xD
  | .reserved14 => 0xE
  | .binaryFloat => 0xF

/-- Element type from the low four bits of a byte
(header.rs, `impl From<u8> for ElementType`: `match value & 0x0F`). -/
def ElementType.ofCode (b : Nat) : ElementType :=
  match b % 16 with
  | 0 => .null
  | 1 => .true
  | 2 => .false
  | 3 => .int
  | 4 => .int5
  | 5 => .float
  | 6 => .float5
  | 7 => .text
  | 8 => .textJ
  | 9 => .text5
  | 0xA => .textRaw
  | 0xB => .array
  | 0xC => .object
  | 0xD => .reserved13
  | 0xE => .reserved14
  | _ => .binaryFloat

/-- Header of a JSONB element: type tag and payload length (header.rs, `struct Header`). -/
structure Header where
  elementType : ElementType
  payloadSize : Nat
deriving DecidableEq, Repr

/-- The error type (error.rs, `enum Error`).  The payloads of `Message`,
`Io`, `Utf8` and the two JSON parser errors are reduced to the information
the control flow inspects.  `empty` is the `Error::Empty` variant that
`de.rs` and `header.rs` construct and match on (the stale `error.rs` in the
snapshot omits it from the enum, but the decoding code is written against
it, and the spec lists it in the failure taxonomy). -/
inductive Error
  | message (s : String)
  | jsonError
  | json5Error
  | invalidElementType (c : Nat)
  | unexpectedType (t : ElementType)
  | io
  | trailingCharacters
  | utf8
  | empty
deriving DecidableEq, Repr

/-- Big-endian byte encoding of `v` on `n` bytes (`to_be_bytes`, truncating
to the low `8*n` bits exactly as the fixed-width Rust integers do). -/
def beBytes : Nat → Nat → List Nat
  | 0, _ => []
  | n + 1, v => beBytes n (v / 256) ++ [v % 256]

/-- Big-endian byte decoding (`from_be_bytes`). -/
def beToNat (bs : List Nat) : Nat :=
  bs.foldl (fun a b => a * 256 + b) 0

/-- Shallow embedding of `Deserializer::read_header` (de.rs:66-110).
Reads the first byte; upper four bits `0..=11` give the payload size
directly, `12/13/14/15` announce `1/2/4/8` further big-endian size bytes.
A read on an exhausted stream yields `Error::Empty`; a stream truncated
mid-header fails the `read_exact` with an I/O error. -/
def read_header : List Nat → Except Error (Header × List Nat)
  | [] => .error .empty
  | b :: rest =>
    let upper := b / 16
    let bytesToRead : Nat :=
      if upper ≤ 11 then 0
      else if upper = 12 then 1
      else if upper = 13 then 2
      else if upper = 14 then 4
      else 8
    if bytesToRead = 0 then
      .ok (⟨ElementType.ofCode b, upper⟩, rest)
    else if rest.length < bytesToRead then
      .error .io
    else
      .ok (⟨ElementType.ofCode b, beToNat (rest.take bytesToRead)⟩, rest.drop bytesToRead)

/-- `Header::serialize` (header.rs:50-57): the maximal, 9-byte form with
upper nibble `0xF` and an 8-byte big-endian size.  Used by
`Deserializer::with_header` to "unread" an already-parsed header. -/
def Header.serializeBytes (h : Header) : List Nat :=
  (h.elementType.code + 0xF0) :: beBytes 8 h.payloadSize

/-- `JsonbWriter::finalize` (ser.rs:72-108), reduced to the bytes of the
header it leaves in front of the payload.  The writer first reserves a
9-byte placeholder whose every byte is the element-type code; `finalize`
overwrites the start of the placeholder with the minimal header for the
actual payload size and compacts the buffer, so the net effect of
new+finalize is `finalize_header t size ++ payload`.  Since the type code
occupies the low nibble and the size marker the high nibble, the `|=` on
the first byte is addition. -/
def finalize_header (t : ElementType) (payload_size : Nat) : List Nat :=
  if payload_size ≤ 11 then
    [t.code + payload_size * 16]
  else if payload_size ≤ 0xff then
    [t.code + 0xc0, payload_size]
  else if payload_size ≤ 0xffff then
    (t.code + 0xd0) :: beBytes 2 payload_size
  else if payload_size ≤ 0xffffffff then
    (t.code + 0xe0) :: beBytes 4 payload_size
  else
    (t.code + 0xf0) :: beBytes 8 payload_size

/-- The five legal header encodings of a `(type, payload_size)` pair, per the
format grammar that `read_header` accepts: a 1-byte form (size in the upper
nibble, only for sizes `0..=11`) and the `0xC/0xD/0xE/0xF`-marked forms with
1, 2, 4 or 8 big-endian size bytes. -/
def headerForm (f : Fin 5) (t : ElementType) (s : Nat) : List Nat :=
  match f with
  | 0 => [t.code + s * 16]
  | 1 => (t.code + 0xc0) :: beBytes 1 s
  | 2 => (t.code + 0xd0) :: beBytes 2 s
  | 3 => (t.code + 0xe0) :: beBytes 4 s
  | 4 => (t.code + 0xf0) :: beBytes 8 s

/-- Length of each legal header form. -/
def formLen (f : Fin 5) : Nat :=
  match f with
  | 0 => 1
  | 1 => 2
  | 2 => 3
  | 3 => 5
  | 4 => 9

/-- Largest payload size each legal header form can carry. -/
def formMax (f : Fin 5) : Nat :=
  match f with
  | 0 => 11
  | 1 => 0xff
  | 2 => 0xffff
  | 3 => 0xffffffff
  | 4 => 2 ^ 64 - 1

/-! ## Decimal text

The serializer writes integers with `write!("{data}")`, i.e. Rust's decimal
`Display` form: an optional leading minus sign followed by the decimal
digits without leading zeros.  The decoder hands the payload text to the
external JSON parser (serde_json), whose RFC 8259 integer grammar is
modelled below. -/

/-- Little-endian decimal ASCII digits of `n`.  The first argument bounds
the recursion depth; 64 digits are sufficient for every value a Rust
integer type can hold. -/
def digitsLE : Nat → Nat → List Nat
  | 0, _ => []
  | _ + 1, 0 => []
  | f + 1, n => (n % 10 + 48) :: digitsLE f (n / 10)

/-- Decimal ASCII text of a natural number (Rust `Display` for the unsigned
integer types). -/
def natDecimal (n : Nat) : List Nat :=
  if n = 0 then [48] else (digitsLE 64 n).reverse

/-- Decimal ASCII text of an integer (Rust `Display` for the signed integer
types): minus sign for negative values, then the decimal digits. -/
def intDecimal (i : Int) : List Nat :=
  if i < 0 then 45 :: natDecimal (-i).toNat else natDecimal i.toNat

/-- ASCII decimal digit test. -/
def isDigit (b : Nat) : Bool := 48 ≤ b && b ≤ 57

/-- Value of a big-endian ASCII digit string. -/
def digitsVal (bs : List Nat) : Nat :=
  bs.foldl (fun a b => a * 10 + (b - 48)) 0

/-- Modelled from the spec: the external canonical JSON text parser
(serde_json, an external collaborator of the codec) applied to an unsigned
integer payload, per the RFC 8259 grammar `int = zero / (digit1-9 *DIGIT)`
with nothing allowed after the digits. -/
def parseJsonNat (bs : List Nat) : Except Error Nat :=
  match bs with
  | [] => .error .jsonError
  | b :: rest =>
    if ¬ isDigit b then .error .jsonError
    else if b = 48 ∧ rest ≠ [] then .error .jsonError
    else if rest.all isDigit then .ok (digitsVal (b :: rest))
    else .error .jsonError

/-- Modelled from the spec: the external canonical JSON parser producing an
`i64`; values outside the `i64` range fail (serde_json surfaces them as an
invalid-value error for an `i64` target). -/
def parse_json_i64 (bs : List Nat) : Except Error Int :=
  if bs.head? = some 45 then do
    let n ← parseJsonNat bs.tail
    if n ≤ 2 ^ 63 then pure (-(n : Int)) else .error .jsonError
  else do
    let n ← parseJsonNat bs
    if n < 2 ^ 63 then pure (n : Int) else .error .jsonError

/-- Modelled from the spec: the external canonical JSON parser producing a
`u64`; a leading minus or a value outside the `u64` range fails. -/
def parse_json_u64 (bs : List Nat) : Except Error Nat :=
  if bs.head? = some 45 then .error .jsonError
  else do
    let n ← parseJsonNat bs
    if n < 2 ^ 64 then pure n else .error .jsonError

/-- Modelled from the spec: the external JSON5-flavored parser
(serde_json5) on an integer payload: like the canonical grammar but also
accepting a leading plus sign and `0x`-prefixed hexadecimal digits. -/
def parse_json5_i64 (bs : List Nat) : Except Error Int :=
  if bs.head? = some 43 then do
    let n ← parseJsonNat bs.tail
    if n < 2 ^ 63 then pure (n : Int) else .error .json5Error
  else if bs.head? = some 45 then do
    let n ← parseJsonNat bs.tail
    if n ≤ 2 ^ 63 then pure (-(n : Int)) else .error .json5Error
  else if bs.head? = some 48 ∧ bs.tail.head? = some 120 then
    let hexDigits := bs.tail.tail
    if hexDigits ≠ [] ∧ hexDigits.all (fun d =>
        isDigit d || (97 ≤ d && d ≤ 102) || (65 ≤ d && d ≤ 70)) then
      let v : Nat := hexDigits.foldl (fun a d =>
        a * 16 + (if d ≤ 57 then d - 48 else if d ≤ 70 then d - 55 else d - 87)) 0
      if v < 2 ^ 63 then .ok (v : Int) else .error .json5Error
    else .error .json5Error
  else do
    let n ← parseJsonNat bs
    if n < 2 ^ 63 then pure (n : Int) else .error .json5Error

/-! ## The structured-value model

`Value` captures the structured values the serde data model feeds through
the serializer: the constructor determines which `serialize_*` method of
`impl ser::Serializer` (ser.rs) runs.  Strings are represented by their
UTF-8 bytes (a Rust `String` is always valid UTF-8), chars by their Unicode
scalar value. -/

inductive Value
  | vUnit
  | vNone
  | vBool (b : Bool)
  | vI64 (i : Int)
  | vU64 (n : Nat)
  | vChar (c : Nat)
  | vStr (s : List Nat)
  | vSome (v : Value)
  | vNewtypeStruct (v : Value)
  | vArr (es : List Value)
  | vTup (es : List Value)
  | vMap (entries : List (List Nat × Value))
  | vStruct (fields : List (List Nat × Value))
  | vEnumUnit (name : List Nat)
  | vEnumNewtype (name : List Nat) (v : Value)
  | vEnumTuple (name : List Nat) (fields : List Value)
  | vEnumStruct (name : List Nat) (fields : List (List Nat × Value))

/-- UTF-8 encoding of a Unicode scalar value (what `write!("{v}")` emits for
a Rust `char`). -/
def utf8EncodeChar (c : Nat) : List Nat :=
  if c < 0x80 then [c]
  else if c < 0x800 then [0xC0 + c / 64, 0x80 + c % 64]
  else if c < 0x10000 then [0xE0 + c / 4096, 0x80 + (c / 64) % 64, 0x80 + c % 64]
  else [0xF0 + c / 262144, 0x80 + (c / 4096) % 64, 0x80 + (c / 64) % 64, 0x80 + c % 64]

/-- One complete element: `JsonbWriter::new` reserves a 9-byte placeholder
header, the payload is written after it, and `finalize` rewrites the
placeholder to the minimal header and compacts the buffer; the net bytes
appended are the minimal header followed by the payload. -/
def element (t : ElementType) (payload : List Nat) : List Nat :=
  finalize_header t payload.length ++ payload

mutual

/-- The serializer (ser.rs, `impl ser::Serializer for &mut Serializer`):
bytes appended to the buffer for one value.
* booleans and unit/none write a bare 1-byte header (`write_header_nodata`);
* integers write their decimal `Display` text as an Int element;
* chars and strings write raw UTF-8 as a TextRaw element;
* `Some(v)` forwards to `v`, newtype structs call `serialize_unit`;
* sequences and tuples write Array elements, maps and structs Object
  elements with alternating TextRaw keys and values;
* enum variants: unit as a bare string, otherwise an Object with the
  variant name as single key (`EnumVariantSerializer`). -/
def to_vec : Value → List Nat
  | .vUnit => [ElementType.null.code]
  | .vNone => [ElementType.null.code]
  | .vBool b => [if b then ElementType.true.code else ElementType.false.code]
  | .vI64 i => element .int (intDecimal i)
  | .vU64 n => element .int (natDecimal n)
  | .vChar c => element .textRaw (utf8EncodeChar c)
  | .vStr s => element .textRaw s
  | .vSome v => to_vec v
  | .vNewtypeStruct _ => [ElementType.null.code]
  | .vArr es => element .array (to_vec_list es)
  | .vTup es => element .array (to_vec_list es)
  | .vMap entries => element .object (to_vec_entries entries)
  | .vStruct fields => element .object (to_vec_entries fields)
  | .vEnumUnit name => element .textRaw name
  | .vEnumNewtype name v =>
    element .object (element .textRaw name ++ to_vec v)
  | .vEnumTuple name fields =>
    element .object (element .textRaw name ++ element .array (to_vec_list fields))
  | .vEnumStruct name fields =>
    element .object (element .textRaw name ++ element .object (to_vec_entries fields))

/-- Elements of a sequence, written back to back (`SerializeSeq`). -/
def to_vec_list : List Value → List Nat
  | [] => []
  | v :: vs => to_vec v ++ to_vec_list vs

/-- Key/value pairs of an object, written back to back: TextRaw key element
then value element (`SerializeMap` / `SerializeStruct`). -/
def to_vec_entries : List (List Nat × Value) → List Nat
  | [] => []
  | (k, v) :: kvs => element .textRaw k ++ to_vec v ++ to_vec_entries kvs

end

/-! ## Decoder building blocks (de.rs) -/

/-- UTF-8 continuation byte test. -/
def isCont (b : Nat) : Bool := 0x80 ≤ b && b ≤ 0xBF

/-- Validity of a byte sequence as UTF-8 (what `Read::read_to_string`
enforces; invalid data surfaces as an `InvalidData` I/O error). -/
def utf8Valid : List Nat → Bool
  | [] => Bool.true
  | b :: rest =>
    if b ≤ 0x7F then utf8Valid rest
    else if 0xC2 ≤ b && b ≤ 0xDF then
      match rest with
      | c1 :: r => isCont c1 && utf8Valid r
      | [] => Bool.false
    else if b = 0xE0 then
      match rest with
      | c1 :: c2 :: r => (0xA0 ≤ c1 && c1 ≤ 0xBF) && isCont c2 && utf8Valid r
      | _ => Bool.false
    else if (0xE1 ≤ b && b ≤ 0xEC) || b = 0xEE || b = 0xEF then
      match rest with
      | c1 :: c2 :: r => isCont c1 && isCont c2 && utf8Valid r
      | _ => Bool.false
    else if b = 0xED then
      match rest with
      | c1 :: c2 :: r => (0x80 ≤ c1 && c1 ≤ 0x9F) && isCont c2 && utf8Valid r
      | _ => Bool.false
    else if b = 0xF0 then
      match rest with
      | c1 :: c2 :: c3 :: r =>
        (0x90 ≤ c1 && c1 ≤ 0xBF) && isCont c2 && isCont c3 && utf8Valid r
      | _ => Bool.false
    else if 0xF1 ≤ b && b ≤ 0xF3 then
      match rest with
      | c1 :: c2 :: c3 :: r => isCont c1 && isCont c2 && isCont c3 && utf8Valid r
      | _ => Bool.false
    else if b = 0xF4 then
      match rest with
      | c1 :: c2 :: c3 :: r =>
        (0x80 ≤ c1 && c1 ≤ 0x8F) && isCont c2 && isCont c3 && utf8Valid r
      | _ => Bool.false
    else Bool.false

/-- `Deserializer::drop_payload` (de.rs:119-128): `read_exact` loop over
exactly `payload_size` bytes; a short stream fails the `read_exact` with an
I/O error.  Returns the remaining stream. -/
def drop_payload (h : Header) (b : List Nat) : Except Error (List Nat) :=
  if b.length < h.payloadSize then .error .io else .ok (b.drop h.payloadSize)

/-- `Deserializer::read_bool` (de.rs:130-137): discard the payload, then
dispatch on the element type. -/
def read_bool (h : Header) (b : List Nat) : Except Error (Bool × List Nat) := do
  let rest ← drop_payload h b
  match h.elementType with
  | .true => .ok (Bool.true, rest)
  | .false => .ok (Bool.false, rest)
  | t => .error (.unexpectedType t)

/-- `Deserializer::read_null` (de.rs:139-145). -/
def read_null (h : Header) (b : List Nat) : Except Error (List Nat) := do
  let rest ← drop_payload h b
  match h.elementType with
  | .null => .ok rest
  | t => .error (.unexpectedType t)

/-- `Deserializer::read_payload_string` (de.rs:112-117): `read_to_string`
over a `take(payload_size)` sub-reader.  Invalid UTF-8 is an I/O error from
`read_to_string`; afterwards the source asserts that exactly `payload_size`
bytes were read (on a short stream that assertion panics — modelled as a
message error, a branch no claim depends on). -/
def read_payload_string (h : Header) (b : List Nat) :
    Except Error (List Nat × List Nat) :=
  let payload := b.take h.payloadSize
  if ¬ utf8Valid payload then .error .io
  else if payload.length ≠ h.payloadSize then
    .error (.message "assertion failed: read == payload_size")
  else .ok (payload, b.drop h.payloadSize)

/-- Hexadecimal digit value. -/
def hexVal (b : Nat) : Option Nat :=
  if 48 ≤ b ∧ b ≤ 57 then some (b - 48)
  else if 97 ≤ b ∧ b ≤ 102 then some (b - 87)
  else if 65 ≤ b ∧ b ≤ 70 then some (b - 55)
  else none

/-- Modelled from the spec: the external JSON string-literal parser on the
quote-wrapped payload of a TextJ/Text5 element (`read_with_quotes` plus the
canonical or JSON5 parser, de.rs:177-191, an external collaborator).  The
body is unescaped: the simple RFC 8259 escapes, `\uXXXX` for BMP scalars
(surrogates rejected), and for the JSON5 flavor also `\xHH` and `\'`.
A raw quote or control character in the body is invalid. -/
def unescapeBody (json5 : Bool) : List Nat → Except Error (List Nat)
  | [] => .ok []
  | 92 :: rest =>
    match rest with
    | [] => .error (if json5 then .json5Error else .jsonError)
    | esc :: rest2 =>
      if esc = 34 then do pure (34 :: (← unescapeBody json5 rest2))
      else if esc = 92 then do pure (92 :: (← unescapeBody json5 rest2))
      else if esc = 47 then do pure (47 :: (← unescapeBody json5 rest2))
      else if esc = 98 then do pure (8 :: (← unescapeBody json5 rest2))
      else if esc = 102 then do pure (12 :: (← unescapeBody json5 rest2))
      else if esc = 110 then do pure (10 :: (← unescapeBody json5 rest2))
      else if esc = 114 then do pure (13 :: (← unescapeBody json5 rest2))
      else if esc = 116 then do pure (9 :: (← unescapeBody json5 rest2))
      else if esc = 117 then
        match rest2 with
        | h1 :: h2 :: h3 :: h4 :: r =>
          match hexVal h1, hexVal h2, hexVal h3, hexVal h4 with
          | some a, some b, some c, some d =>
            let cp := ((a * 16 + b) * 16 + c) * 16 + d
            if 0xD800 ≤ cp ∧ cp ≤ 0xDFFF then
              .error (if json5 then .json5Error else .jsonError)
            else do pure (utf8EncodeChar cp ++ (← unescapeBody json5 r))
          | _, _, _, _ => .error (if json5 then .json5Error else .jsonError)
        | _ => .error (if json5 then .json5Error else .jsonError)
      else if json5 ∧ esc = 120 then
        match rest2 with
        | h1 :: h2 :: r =>
          match hexVal h1, hexVal h2 with
          | some a, some b => do pure (utf8EncodeChar (a * 16 + b) ++ (← unescapeBody json5 r))
          | _, _ => .error .json5Error
        | _ => .error .json5Error
      else if json5 ∧ esc = 39 then do pure (39 :: (← unescapeBody json5 rest2))
      else .error (if json5 then .json5Error else .jsonError)
  | b :: rest =>
    if b = 34 ∨ b < 32 then .error (if json5 then .json5Error else .jsonError)
    else do pure (b :: (← unescapeBody json5 rest))

/-- `Deserializer::read_string` (de.rs:204-213): Text and TextRaw payloads
are verbatim UTF-8; TextJ/Text5 payloads go through the quote-wrapping
bridge to the external string parser over a length-bounded sub-reader. -/
def read_string (h : Header) (b : List Nat) :
    Except Error (List Nat × List Nat) :=
  match h.elementType with
  | .text | .textRaw => read_payload_string h b
  | .textJ => do
    let s ← unescapeBody Bool.false (b.take h.payloadSize)
    .ok (s, b.drop h.payloadSize)
  | .text5 => do
    let s ← unescapeBody Bool.true (b.take h.payloadSize)
    .ok (s, b.drop h.payloadSize)
  | t => .error (.unexpectedType t)

/-- Payload extraction of `Deserializer::read_json_compatible`
(de.rs:153-167): payloads of at most 8 bytes are `read_exact` into a stack
buffer from the underlying reader (a short stream is an I/O error); larger
payloads stream through a length-bounded sub-reader into the external
parser. -/
def read_json_payload (h : Header) (b : List Nat) :
    Except Error (List Nat × List Nat) :=
  if h.payloadSize ≤ 8 then
    if b.length < h.payloadSize then .error .io
    else .ok (b.take h.payloadSize, b.drop h.payloadSize)
  else
    .ok (b.take h.payloadSize, b.drop h.payloadSize)

/-- Payload extraction of `Deserializer::read_json5_compatible`
(de.rs:169-175): always a length-bounded sub-reader. -/
def read_json5_payload (h : Header) (b : List Nat) :
    Except Error (List Nat × List Nat) :=
  .ok (b.take h.payloadSize, b.drop h.payloadSize)

/-- `Deserializer::read_integer::<i64>` (de.rs:193-202): dispatch on the
element type, delegating the payload to the canonical or JSON5 number
parser. -/
def read_integer_i64 (h : Header) (b : List Nat) :
    Except Error (Int × List Nat) :=
  match h.elementType with
  | .int => do
    let (p, rest) ← read_json_payload h b
    let i ← parse_json_i64 p
    .ok (i, rest)
  | .int5 => do
    let (p, rest) ← read_json5_payload h b
    let i ← parse_json5_i64 p
    .ok (i, rest)
  | t => .error (.unexpectedType t)

/-- Modelled from the spec: the external JSON5 parser for a `u64` target. -/
def parse_json5_u64 (bs : List Nat) : Except Error Nat :=
  match parse_json5_i64 bs with
  | .ok i => if 0 ≤ i then .ok i.toNat else .error .json5Error
  | .error e => .error e

/-- `Deserializer::read_integer::<u64>` (de.rs:193-202). -/
def read_integer_u64 (h : Header) (b : List Nat) :
    Except Error (Nat × List Nat) :=
  match h.elementType with
  | .int => do
    let (p, rest) ← read_json_payload h b
    let n ← parse_json_u64 p
    .ok (n, rest)
  | .int5 => do
    let (p, rest) ← read_json5_payload h b
    let n ← parse_json5_u64 p
    .ok (n, rest)
  | t => .error (.unexpectedType t)

/-- `Deserializer::read_float` (de.rs:215-226): Int, Int5, Float and Float5
payloads are delegated to the external number-text parsers (the parsed
`f64` cannot be shallow-embedded, so the model yields the payload text
handed to that parser); every other element type — including the 0xF code
that `ser.rs` emits as BinaryFloat — falls into the
`t => Err(Error::UnexpectedType(t))` arm. -/
def read_float (h : Header) (b : List Nat) :
    Except Error (List Nat × List Nat) :=
  match h.elementType with
  | .int => read_json_payload h b
  | .int5 => read_json5_payload h b
  | .float => read_json_payload h b
  | .float5 => read_json5_payload h b
  | t => .error (.unexpectedType t)

/-- `deserialize_ignored_any` (de.rs:509-516): read a header and discard
its payload. -/
def deserialize_ignored_any (b : List Nat) : Except Error (List Nat) := do
  let (h, r) ← read_header b
  drop_payload h r

/-- `deserialize_string`/`deserialize_str`/`deserialize_identifier`
(de.rs:548-562): read a header, then the string. -/
def decodeString (b : List Nat) : Except Error (List Nat × List Nat) := do
  let (h, r) ← read_header b
  read_string h r

/-- `SeqAccess::next_element_seed` (de.rs:579-592): a child decode ending
in `Error::Empty` is the normal end-of-sequence signal (`Ok(None)`); every
other error propagates unchanged.  (When the conversion fires, the source
leaves the sub-reader wherever the failed child read stopped; the model
reports the position from before the child, which can only lengthen the
reported leftover and is indistinguishable in every surfaced result.) -/
def nextElementSeed {α : Type} (r : Except Error α) : Except Error (Option α) :=
  match r with
  | .ok v => .ok (some v)
  | .error .empty => .ok none
  | .error e => .error e

/-! ## Typed decoding

Rust's `from_slice::<T>` is driven by the target type `T`: the serde-derive
glue calls the matching `deserialize_*` method and supplies the visitor.
`Shape` is the embedding of that target type, and the fueled `decodeValue`
family below is the embedding of `impl de::Deserializer` (de.rs:292-577)
together with the serde-derive visitors the spec describes as the external
traversal protocol.  The fuel argument only bounds the recursion depth
(the source recurses on the call stack; the spec notes that deeply nested
input can exhaust it); the entry points pass a depth that the sufficiency
lemmas show is never exhausted on the inputs the theorems speak about. -/

mutual

/-- The target-type shapes: unit, bool, `i64`, `u64`, char, String,
`Option<T>`, `Vec<T>`, tuples, `Map<String, T>`, structs with named
fields, and enums. -/
inductive Shape
  | sUnit
  | sBool
  | sI64
  | sU64
  | sChar
  | sStr
  | sOption (τ : Shape)
  | sSeq (τ : Shape)
  | sTuple (τs : List Shape)
  | sMap (τ : Shape)
  | sStruct (fields : List (List Nat × Shape))
  | sEnum (variants : List (List Nat × VariantShape))

/-- The four serde enum-variant shapes. -/
inductive VariantShape
  | vsUnit
  | vsNewtype (τ : Shape)
  | vsTuple (τs : List Shape)
  | vsStruct (fields : List (List Nat × Shape))

end

/-- Error used when the model's recursion-depth bound is exhausted (the
source's counterpart is call-stack exhaustion). -/
def fuelExhausted : Error := .message "recursion limit"

/-- Variant lookup by name: index and shape of the first variant with the
given name (the derived identifier visitor matches the name against the
variant list). -/
def findVariant : List (List Nat × VariantShape) → List Nat → Option (Nat × VariantShape)
  | [], _ => none
  | (n, vs) :: rest, s =>
    if n = s then some (0, vs)
    else (findVariant rest s).map (fun p => (p.1 + 1, p.2))

/-- Field lookup by name: index and shape of the first field with the given
name (the derived field-identifier visitor). -/
def findField : List (List Nat × Shape) → List Nat → Option (Nat × Shape)
  | [], _ => none
  | (n, τ) :: rest, s =>
    if n = s then some (0, τ)
    else (findField rest s).map (fun p => (p.1 + 1, p.2))

/-- End of a derived struct visit: every field must have been seen
(otherwise serde raises a missing-field error); the values are returned in
declaration order. -/
def collectFields : List (List Nat × Shape) → List (Option Value) →
    Except Error (List (List Nat × Value))
  | [], _ => .ok []
  | (n, _) :: fs, some v :: acc => do
    let rest ← collectFields fs acc
    .ok ((n, v) :: rest)
  | _ :: _, _ => .error (.message "missing field")

mutual

/-- Typed decoding of one value of shape `τ` from the stream: the dispatch
of `impl de::Deserializer` (de.rs) as driven by a serde-derived target
type.  Containers construct a length-bounded sub-reader (`take` of the
payload size); whatever the visitor leaves unread inside the bound stays in
front of the remaining stream, exactly as an unread `Take` does. -/
def decodeValue : Nat → Shape → List Nat → Except Error (Value × List Nat)
  | 0, _, _ => .error fuelExhausted
  | fuel + 1, τ, b =>
    match τ with
    | .sUnit => do
      -- deserialize_unit (de.rs:388-395)
      let (h, r) ← read_header b
      let r2 ← read_null h r
      .ok (.vUnit, r2)
    | .sBool => do
      -- deserialize_bool (de.rs:303-309)
      let (h, r) ← read_header b
      let (v, r2) ← read_bool h r
      .ok (.vBool v, r2)
    | .sI64 => do
      -- deserialize_i64 (de.rs:335-341)
      let (h, r) ← read_header b
      let (i, r2) ← read_integer_i64 h r
      .ok (.vI64 i, r2)
    | .sU64 => do
      -- deserialize_u64 (de.rs:367-373)
      let (h, r) ← read_header b
      let (n, r2) ← read_integer_u64 h r
      .ok (.vU64 n, r2)
    | .sChar => do
      -- deserialize_char (de.rs:534-546): the length check is on the
      -- byte length of the decoded string
      let (h, r) ← read_header b
      let (s, r2) ← read_string h r
      match s with
      | [c] => .ok (.vChar c, r2)
      | _ => .error (.message "invalid string length for char")
    | .sStr => do
      -- deserialize_string (de.rs:556-562)
      let (h, r) ← read_header b
      let (s, r2) ← read_string h r
      .ok (.vStr s, r2)
    | .sOption τ1 => do
      -- deserialize_option (de.rs:375-386): a Null header is None; any
      -- other header is "unread" (with_header chains the re-serialized
      -- 9-byte header in front of the reader) and the value is decoded
      let (h, r) ← read_header b
      if h.elementType = .null then .ok (.vNone, r)
      else do
        let (v, r2) ← decodeValue fuel τ1 (h.serializeBytes ++ r)
        .ok (.vSome v, r2)
    | .sSeq τ1 => do
      -- deserialize_seq (de.rs:419-427): header (of any element type),
      -- then a length-bounded sub-reader driven until end-of-sequence
      let (h, r) ← read_header b
      let (vs, l) ← decodeSeqItems fuel τ1 (r.take h.payloadSize)
      .ok (.vArr vs, l ++ r.drop h.payloadSize)
    | .sTuple τs => do
      -- deserialize_tuple → deserialize_seq (de.rs:429-434); the derived
      -- visitor reads exactly the tuple arity
      let (h, r) ← read_header b
      let (vs, l) ← decodeTupleItems fuel τs (r.take h.payloadSize)
      .ok (.vTup vs, l ++ r.drop h.payloadSize)
    | .sMap τ1 => do
      -- deserialize_map (de.rs:448-456)
      let (h, r) ← read_header b
      let (kvs, l) ← decodeMapItems fuel τ1 (r.take h.payloadSize)
      .ok (.vMap kvs, l ++ r.drop h.payloadSize)
    | .sStruct fields => do
      -- deserialize_struct → deserialize_map (de.rs:458-468) with the
      -- derived struct visitor
      let (h, r) ← read_header b
      let (acc, l) ← decodeStructLoop fuel fields
        (List.replicate fields.length none) (r.take h.payloadSize)
      let vals ← collectFields fields acc
      .ok (.vStruct vals, l ++ r.drop h.payloadSize)
    | .sEnum variants => do
      -- deserialize_enum (de.rs:470-500)
      let (h, r) ← read_header b
      match h.elementType with
      | .text | .textJ | .text5 | .textRaw => do
        -- bare text selects a unit-like variant by name
        let (s, r2) ← read_string h r
        match findVariant variants s with
        | none => .error (.message "unknown variant")
        | some (_, .vsUnit) => .ok (.vEnumUnit s, r2)
        | some _ => .error (.message "invalid type: string for data-carrying variant")
      | .object => do
        -- an Object payload: bounded sub-reader; the single key is the
        -- variant name, decoded through deserialize_identifier
        let region := r.take h.payloadSize
        let (h2, ra) ← read_header region
        let (name, rb) ← read_string h2 ra
        match findVariant variants name with
        | none => .error (.message "unknown variant")
        | some (_, vshape) => do
          let (v, l) ← decodeVariantData fuel vshape name rb
          -- trailing check inside the bounded region (de.rs:492-496)
          if l = [] then .ok (v, r.drop h.payloadSize)
          else .error .trailingCharacters
      | other => .error (.unexpectedType other)

/-- `impl de::VariantAccess` (de.rs:626-657): the data of one enum
variant, decoded from the variant's bounded Object region right after the
variant-name key. -/
def decodeVariantData : Nat → VariantShape → List Nat → List Nat →
    Except Error (Value × List Nat)
  | 0, _, _, _ => .error fuelExhausted
  | fuel + 1, vshape, name, b =>
    match vshape with
    | .vsUnit =>
      -- unit_variant reads nothing
      .ok (.vEnumUnit name, b)
    | .vsNewtype τ1 => do
      -- newtype_variant_seed: the field's own encoding
      let (v, r) ← decodeValue fuel τ1 b
      .ok (.vEnumNewtype name v, r)
    | .vsTuple τs => do
      -- tuple_variant → deserialize_seq
      let (h, r) ← read_header b
      let (vs, l) ← decodeTupleItems fuel τs (r.take h.payloadSize)
      .ok (.vEnumTuple name vs, l ++ r.drop h.payloadSize)
    | .vsStruct fields => do
      -- struct_variant → deserialize_map with the derived struct visitor
      let (h, r) ← read_header b
      let (acc, l) ← decodeStructLoop fuel fields
        (List.replicate fields.length none) (r.take h.payloadSize)
      let vals ← collectFields fields acc
      .ok (.vEnumStruct name vals, l ++ r.drop h.payloadSize)

/-- The derived `Vec` visitor: `next_element_seed` until end of sequence. -/
def decodeSeqItems : Nat → Shape → List Nat →
    Except Error (List Value × List Nat)
  | 0, _, _ => .error fuelExhausted
  | fuel + 1, τ1, b => do
    match ← nextElementSeed (decodeValue fuel τ1 b) with
    | none => .ok ([], b)
    | some (v, r) => do
      let (vs, l) ← decodeSeqItems fuel τ1 r
      .ok (v :: vs, l)

/-- The derived tuple visitor: exactly one element per component; an early
end of the sequence is an invalid-length error. -/
def decodeTupleItems : Nat → List Shape → List Nat →
    Except Error (List Value × List Nat)
  | 0, _, _ => .error fuelExhausted
  | _ + 1, [], b => .ok ([], b)
  | fuel + 1, τ1 :: τs, b => do
    match ← nextElementSeed (decodeValue fuel τ1 b) with
    | none => .error (.message "invalid length")
    | some (v, r) => do
      let (vs, l) ← decodeTupleItems fuel τs r
      .ok (v :: vs, l)

/-- The derived map visitor over `impl de::MapAccess` (de.rs:594-611):
keys through `next_key_seed` (a `String` decode), values through
`next_value_seed`, which turns a missing value into `Error::Empty`. -/
def decodeMapItems : Nat → Shape → List Nat →
    Except Error (List (List Nat × Value) × List Nat)
  | 0, _, _ => .error fuelExhausted
  | fuel + 1, τ1, b => do
    match ← nextElementSeed (decodeString b) with
    | none => .ok ([], b)
    | some (k, r) => do
      match ← nextElementSeed (decodeValue fuel τ1 r) with
      | none => .error .empty
      | some (v, r2) => do
        let (kvs, l) ← decodeMapItems fuel τ1 r2
        .ok ((k, v) :: kvs, l)

/-- The derived struct visitor: field identifiers through
`deserialize_identifier`, known fields decoded into their slot (a second
occurrence is a duplicate-field error), unknown fields skipped through
`deserialize_ignored_any`, until end of the map region. -/
def decodeStructLoop : Nat → List (List Nat × Shape) → List (Option Value) →
    List Nat → Except Error (List (Option Value) × List Nat)
  | 0, _, _, _ => .error fuelExhausted
  | fuel + 1, fields, acc, b => do
    match ← nextElementSeed (decodeString b) with
    | none => .ok (acc, b)
    | some (k, r) =>
      match findField fields k with
      | some (i, τf) =>
        match acc[i]? with
        | some (some _) => .error (.message "duplicate field")
        | _ => do
          match ← nextElementSeed (decodeValue fuel τf r) with
          | none => .error .empty
          | some (v, r2) => decodeStructLoop fuel fields (acc.set i (some v)) r2
      | none => do
        match ← nextElementSeed (deserialize_ignored_any r) with
        | none => .error .empty
        | some r2 => decodeStructLoop fuel fields acc r2

end

mutual

/-- Structural size of a shape, used only for the recursion-depth budget. -/
def shapeDepth : Shape → Nat
  | .sUnit => 1
  | .sBool => 1
  | .sI64 => 1
  | .sU64 => 1
  | .sChar => 1
  | .sStr => 1
  | .sOption τ => shapeDepth τ + 1
  | .sSeq τ => shapeDepth τ + 1
  | .sTuple τs => shapeListDepth τs + 1
  | .sMap τ => shapeDepth τ + 1
  | .sStruct fields => fieldsDepth fields + 1
  | .sEnum variants => variantsDepth variants + 1

def shapeListDepth : List Shape → Nat
  | [] => 1
  | τ :: τs => shapeDepth τ + shapeListDepth τs + 1

def fieldsDepth : List (List Nat × Shape) → Nat
  | [] => 1
  | (_, τ) :: fs => shapeDepth τ + fieldsDepth fs + 1

def variantsDepth : List (List Nat × VariantShape) → Nat
  | [] => 1
  | (_, vs) :: rest => variantShapeDepth vs + variantsDepth rest + 1

def variantShapeDepth : VariantShape → Nat
  | .vsUnit => 1
  | .vsNewtype τ => shapeDepth τ + 1
  | .vsTuple τs => shapeListDepth τs + 1
  | .vsStruct fields => fieldsDepth fields + 1

end

/-- Depth budget for the entry points: one level per consumed byte plus the
structural depth of the target shape. -/
def decode_fuel (τ : Shape) (b : List Nat) : Nat :=
  b.length + shapeDepth τ + 1

/-- `from_slice` (de.rs:30-41): decode one value, then the input slice must
be exhausted, otherwise `TrailingCharacters`. -/
def from_slice (τ : Shape) (b : List Nat) : Except Error Value := do
  let (v, rest) ← decodeValue (decode_fuel τ b) τ b
  if rest.isEmpty then .ok v else .error .trailingCharacters

/-- `from_reader` (de.rs:44-56): decode one value, then probe the stream
with a 1-byte read; reading more than zero bytes is `TrailingCharacters`.
On a byte stream the probe returns zero bytes exactly when the stream is
exhausted. -/
def from_reader (τ : Shape) (b : List Nat) : Except Error Value := do
  let (v, rest) ← decodeValue (decode_fuel τ b) τ b
  match rest with
  | [] => .ok v
  | _ :: _ => .error .trailingCharacters

/-! ## Open-ended decoding (`deserialize_any`) -/

/-- The visitation a `deserialize_any` decode produces: the constructor
records which `Visitor` method was invoked (in particular which narrowed
integer width).  Float payloads are delegated to the external number
parser, so the model records the text handed to it. -/
inductive DynValue
  | dUnit
  | dBool (b : Bool)
  | dU8 (n : Nat)
  | dI8 (i : Int)
  | dU16 (n : Nat)
  | dI16 (i : Int)
  | dU32 (n : Nat)
  | dI32 (i : Int)
  | dU64 (n : Nat)
  | dI64 (i : Int)
  | dF64Text (payload : List Nat)
  | dStr (s : List Nat)
  | dSeq (es : List DynValue)
  | dMap (entries : List (DynValue × DynValue))

mutual

/-- `Deserializer::deserialize_any_with_header` (de.rs:228-281).  For Int
and Int5 the parsed `i64` runs through the `u8 → i8 → u16 → i16 → u32 →
i32 → u64 → i64` `try_from` chain, and the first conversion that succeeds
picks the visitor method.  Arrays and objects pass `self` to the visitor —
note, unlike `deserialize_seq`, without a length-bounded sub-reader.  The
reserved arm covers codes 0xD, 0xE and 0xF (the source spells the 0xF case
`Reserved15`, a variant that does not exist in header.rs, where 0xF is
`BinaryFloat`). -/
def deserialize_any_with_header : Nat → Header → List Nat →
    Except Error (DynValue × List Nat)
  | 0, _, _ => .error fuelExhausted
  | fuel + 1, h, b =>
    match h.elementType with
    | .null => do
      let r ← read_null h b
      .ok (.dUnit, r)
    | .true | .false => do
      let (v, r) ← read_bool h b
      .ok (.dBool v, r)
    | .float | .float5 => do
      let (p, r) ← read_float h b
      .ok (.dF64Text p, r)
    | .int | .int5 => do
      let (i, r) ← read_integer_i64 h b
      if 0 ≤ i ∧ i < 256 then .ok (.dU8 i.toNat, r)
      else if -128 ≤ i ∧ i < 128 then .ok (.dI8 i, r)
      else if 0 ≤ i ∧ i < 65536 then .ok (.dU16 i.toNat, r)
      else if -32768 ≤ i ∧ i < 32768 then .ok (.dI16 i, r)
      else if 0 ≤ i ∧ i < 4294967296 then .ok (.dU32 i.toNat, r)
      else if -2147483648 ≤ i ∧ i < 2147483648 then .ok (.dI32 i, r)
      else if 0 ≤ i then .ok (.dU64 i.toNat, r)
      else .ok (.dI64 i, r)
    | .array => do
      let (es, r) ← decodeAnySeqItems fuel b
      .ok (.dSeq es, r)
    | .object => do
      let (kvs, r) ← decodeAnyMapItems fuel b
      .ok (.dMap kvs, r)
    | .text | .textJ | .text5 | .textRaw => do
      let (s, r) ← read_string h b
      .ok (.dStr s, r)
    | .reserved13 | .reserved14 | .binaryFloat =>
      .error (.unexpectedType h.elementType)

/-- `deserialize_any` (de.rs:295-301): read a header and dispatch. -/
def decodeAny : Nat → List Nat → Except Error (DynValue × List Nat)
  | 0, _ => .error fuelExhausted
  | fuel + 1, b => do
    let (h, r) ← read_header b
    deserialize_any_with_header fuel h r

/-- `visit_seq(self)` in any-mode: elements decoded open-endedly until the
end-of-sequence signal. -/
def decodeAnySeqItems : Nat → List Nat → Except Error (List DynValue × List Nat)
  | 0, _ => .error fuelExhausted
  | fuel + 1, b => do
    match ← nextElementSeed (decodeAny fuel b) with
    | none => .ok ([], b)
    | some (v, r) => do
      let (vs, l) ← decodeAnySeqItems fuel r
      .ok (v :: vs, l)

/-- `visit_map(self)` in any-mode: key and value both decoded
open-endedly; a key without a value is `Error::Empty`
(`next_value_seed`, de.rs:604-610). -/
def decodeAnyMapItems : Nat → List Nat →
    Except Error (List (DynValue × DynValue) × List Nat)
  | 0, _ => .error fuelExhausted
  | fuel + 1, b => do
    match ← nextElementSeed (decodeAny fuel b) with
    | none => .ok ([], b)
    | some (k, r) => do
      match ← nextElementSeed (decodeAny fuel r) with
      | none => .error .empty
      | some (v, r2) => do
        let (kvs, l) ← decodeAnyMapItems fuel r2
        .ok ((k, v) :: kvs, l)

end

/-- Entry point for open-ended decoding of one element. -/
def deserialize_any (b : List Nat) : Except Error (DynValue × List Nat) :=
  decodeAny (b.length + 1) b

/-- `deserialize_f64` (de.rs:526-532): read a header, then `read_float`;
the model yields the text handed to the external float parser. -/
def deserialize_f64 (b : List Nat) : Except Error (List Nat × List Nat) := do
  let (h, r) ← read_header b
  read_float h r

/-- The integer-narrowing chain of `deserialize_any_with_header`
(de.rs:249-265) in isolation: the visitor method selected for a parsed
`i64`. -/
def narrowDyn (i : Int) : DynValue :=
  if 0 ≤ i ∧ i < 256 then .dU8 i.toNat
  else if -128 ≤ i ∧ i < 128 then .dI8 i
  else if 0 ≤ i ∧ i < 65536 then .dU16 i.toNat
  else if -32768 ≤ i ∧ i < 32768 then .dI16 i
  else if 0 ≤ i ∧ i < 4294967296 then .dU32 i.toNat
  else if -2147483648 ≤ i ∧ i < 2147483648 then .dI32 i
  else if 0 ≤ i then .dU64 i.toNat
  else .dI64 i

/-- The spec's trial order, written from the spec's words: "prefer unsigned
8/16/32/64-bit, then signed 8/16/32/64-bit, in that trial order" — the
visitor method is the first width in that order the value fits into. -/
def specNarrowOrder (i : Int) : DynValue :=
  if 0 ≤ i ∧ i < 2 ^ 8 then .dU8 i.toNat
  else if 0 ≤ i ∧ i < 2 ^ 16 then .dU16 i.toNat
  else if 0 ≤ i ∧ i < 2 ^ 32 then .dU32 i.toNat
  else if 0 ≤ i ∧ i < 2 ^ 64 then .dU64 i.toNat
  else if -(2 ^ 7) ≤ i ∧ i < 2 ^ 7 then .dI8 i
  else if -(2 ^ 15) ≤ i ∧ i < 2 ^ 15 then .dI16 i
  else if -(2 ^ 31) ≤ i ∧ i < 2 ^ 31 then .dI32 i
  else .dI64 i

/-! ## The top-level encode entry points (C8) -/

/-- Outcome of a Rust call that either returns or panics. -/
inductive PanicOr (α : Type)
  | panicked
  | returns (a : α)

/-- `to_vec` (ser.rs:33-40): `value.serialize(&mut serializer)?` — an error
from the value's `Serialize` implementation (which, for a caller-supplied
type, can be any error) is propagated to the caller by `?`; on success the
buffer is returned.  The argument is the outcome of `value.serialize`. -/
def to_vec_surface (ser : Except Error (List Nat)) :
    PanicOr (Except Error (List Nat)) :=
  match ser with
  | .ok buf => .returns (.ok buf)
  | .error e => .returns (.error e)

/-- `to_vec_with_options` (ser.rs:42-49):
`value.serialize(&mut serializer).unwrap()` — `unwrap` panics on an `Err`
instead of returning it. -/
def to_vec_with_options_surface (ser : Except Error (List Nat)) :
    PanicOr (Except Error (List Nat)) :=
  match ser with
  | .ok buf => .returns (.ok buf)
  | .error _ => .panicked

/-! ## Shape relation and wellformedness -/

/-- Values whose encoding is the single Null byte (`0x00`): unit and
absent options (and, through the source's `serialize_newtype_struct`,
newtype structs); a present option forwards to the wrapped value. -/
def isNullEncoded : Value → Bool
  | .vUnit => Bool.true
  | .vNone => Bool.true
  | .vNewtypeStruct _ => Bool.true
  | .vSome v => isNullEncoded v
  | _ => Bool.false

/-- `HasShape v τ`: the value `v` is a Rust value of the target type
embedded by `τ`, restricted to what round-trips (see the C1 analysis):
integers carry their Rust range, strings and names are valid UTF-8, and
struct-field/enum-variant names are duplicate-free — all automatic for
values of a Rust program — plus the two genuine restrictions: chars are
ASCII, and a present option never wraps a value that encodes as Null. -/
inductive HasShape : Value → Shape → Prop
  | unit : HasShape .vUnit .sUnit
  | bool (b : Bool) : HasShape (.vBool b) .sBool
  | i64 (i : Int) (h1 : -(2 ^ 63) ≤ i) (h2 : i < 2 ^ 63) :
      HasShape (.vI64 i) .sI64
  | u64 (n : Nat) (h : n < 2 ^ 64) : HasShape (.vU64 n) .sU64
  | char (c : Nat) (h : c < 0x80) : HasShape (.vChar c) .sChar
  | str (s : List Nat) (h : utf8Valid s = Bool.true) : HasShape (.vStr s) .sStr
  | none (τ : Shape) : HasShape .vNone (.sOption τ)
  | some (v : Value) (τ : Shape) (h : HasShape v τ)
      (hnn : isNullEncoded v = Bool.false) : HasShape (.vSome v) (.sOption τ)
  | arr (es : List Value) (τ : Shape) (h : ∀ e ∈ es, HasShape e τ) :
      HasShape (.vArr es) (.sSeq τ)
  | tup (es : List Value) (τs : List Shape) (hlen : es.length = τs.length)
      (h : ∀ p ∈ es.zip τs, HasShape p.1 p.2) :
      HasShape (.vTup es) (.sTuple τs)
  | map (kvs : List (List Nat × Value)) (τ : Shape)
      (hk : ∀ p ∈ kvs, utf8Valid p.1 = Bool.true)
      (hv : ∀ p ∈ kvs, HasShape p.2 τ) :
      HasShape (.vMap kvs) (.sMap τ)
  | struct (kvs : List (List Nat × Value)) (fields : List (List Nat × Shape))
      (hn : kvs.map Prod.fst = fields.map Prod.fst)
      (hnd : (fields.map Prod.fst).Nodup)
      (hu : ∀ p ∈ fields, utf8Valid p.1 = Bool.true)
      (hlen : kvs.length = fields.length)
      (hv : ∀ p ∈ kvs.zip fields, HasShape p.1.2 p.2.2) :
      HasShape (.vStruct kvs) (.sStruct fields)
  | enumUnit (n : List Nat) (variants : List (List Nat × VariantShape))
      (hmem : (n, .vsUnit) ∈ variants)
      (hnd : (variants.map Prod.fst).Nodup)
      (hu : utf8Valid n = Bool.true) :
      HasShape (.vEnumUnit n) (.sEnum variants)
  | enumNewtype (n : List Nat) (v : Value) (τ : Shape)
      (variants : List (List Nat × VariantShape))
      (hmem : (n, .vsNewtype τ) ∈ variants)
      (hnd : (variants.map Prod.fst).Nodup)
      (hu : utf8Valid n = Bool.true)
      (hv : HasShape v τ) :
      HasShape (.vEnumNewtype n v) (.sEnum variants)
  | enumTuple (n : List Nat) (vs : List Value) (τs : List Shape)
      (variants : List (List Nat × VariantShape))
      (hmem : (n, .vsTuple τs) ∈ variants)
      (hnd : (variants.map Prod.fst).Nodup)
      (hu : utf8Valid n = Bool.true)
      (hlen : vs.length = τs.length)
      (hv : ∀ p ∈ vs.zip τs, HasShape p.1 p.2) :
      HasShape (.vEnumTuple n vs) (.sEnum variants)
  | enumStruct (n : List Nat) (kvs : List (List Nat × Value))
      (fields : List (List Nat × Shape))
      (variants : List (List Nat × VariantShape))
      (hmem : (n, .vsStruct fields) ∈ variants)
      (hnd : (variants.map Prod.fst).Nodup)
      (hu : utf8Valid n = Bool.true)
      (hfn : kvs.map Prod.fst = fields.map Prod.fst)
      (hfnd : (fields.map Prod.fst).Nodup)
      (hfu : ∀ p ∈ fields, utf8Valid p.1 = Bool.true)
      (hlen : kvs.length = fields.length)
      (hv : ∀ p ∈ kvs.zip fields, HasShape p.1.2 p.2.2) :
      HasShape (.vEnumStruct n kvs) (.sEnum variants)

/-- A buffer holding one complete top-level JSONB element: a parseable
header followed by exactly the declared number of payload bytes (the
well-formedness `is_jsonb` in header.rs checks for standalone buffers). -/
def topComplete (b : List Nat) : Prop :=
  ∃ h r, read_header b = .ok (h, r) ∧ r.length = h.payloadSize

/-- The element type of the header a value's encoding starts with:
`Some(v)` forwards to `v`, everything else is determined by the
`serialize_*` method the constructor maps to. -/
def encType : Value → ElementType
  | .vUnit => .null
  | .vNone => .null
  | .vNewtypeStruct _ => .null
  | .vBool b => if b then .true else .false
  | .vI64 _ => .int
  | .vU64 _ => .int
  | .vChar _ => .textRaw
  | .vStr _ => .textRaw
  | .vSome v => encType v
  | .vArr _ => .array
  | .vTup _ => .array
  | .vMap _ => .object
  | .vStruct _ => .object
  | .vEnumUnit _ => .textRaw
  | .vEnumNewtype _ _ => .object
  | .vEnumTuple _ _ => .object
  | .vEnumStruct _ _ => .object

/-- The payload of the element a value encodes to (the bytes between the
finalized header and the end of the element). -/
def encPayload : Value → List Nat
  | .vUnit => []
  | .vNone => []
  | .vNewtypeStruct _ => []
  | .vBool _ => []
  | .vI64 i => intDecimal i
  | .vU64 n => natDecimal n
  | .vChar c => utf8EncodeChar c
  | .vStr s => s
  | .vSome v => encPayload v
  | .vArr es => to_vec_list es
  | .vTup es => to_vec_list es
  | .vMap kvs => to_vec_entries kvs
  | .vStruct kvs => to_vec_entries kvs
  | .vEnumUnit n => n
  | .vEnumNewtype n v => element .textRaw n ++ to_vec v
  | .vEnumTuple n vs => element .textRaw n ++ element .array (to_vec_list vs)
  | .vEnumStruct n kvs => element .textRaw n ++ element .object (to_vec_entries kvs)

/-- Nesting depth of `Some` wrappers (a present option adds no bytes of its
own, so induction on the encoding needs this auxiliary measure). -/
def someDepth : Value → Nat
  | .vSome v => someDepth v + 1
  | _ => 0

/-! ## Theorems -/

@[simp] theorem ok_bind {ε α β : Type} (a : α) (f : α → Except ε β) :
    (Except.ok a >>= f) = f a := rfl

@[simp] theorem error_bind {ε α β : Type} (e : ε) (f : α → Except ε β) :
    ((Except.error e : Except ε α) >>= f) = Except.error e := rfl

@[simp] theorem beBytes_length (n v : Nat) : (beBytes n v).length = n := by
  induction n generalizing v with
  | zero => simp [beBytes]
  | succ k ih => simp [beBytes, ih]

theorem beToNat_append (xs ys : List Nat) :
    beToNat (xs ++ ys) = ys.foldl (fun a b => a * 256 + b) (beToNat xs) := by
  simp [beToNat, List.foldl_append]

theorem beToNat_beBytes (n v : Nat) (h : v < 256 ^ n) :
    beToNat (beBytes n v) = v := by
  induction n generalizing v with
  | zero =>
    simp [beBytes, beToNat]
    omega
  | succ k ih =>
    have hdiv : v / 256 < 256 ^ k := by
      rw [Nat.div_lt_iff_lt_mul (by omega : 0 < 256)]
      calc v < 256 ^ (k + 1) := h
        _ = 256 ^ k * 256 := by ring
    simp only [beBytes, beToNat_append]
    rw [show beToNat (beBytes k (v / 256)) = v / 256 from ih (v / 256) hdiv]
    simp [Nat.div_add_mod]
    omega

@[simp] theorem ElementType.code_lt (t : ElementType) : t.code < 16 := by
  cases t <;> simp [ElementType.code]

@[simp] theorem ElementType.ofCode_code (t : ElementType) :
    ElementType.ofCode t.code = t := by
  cases t <;> rfl

theorem headerForm_length (f : Fin 5) (t : ElementType) (s : Nat) :
    (headerForm f t s).length = formLen f := by
  fin_cases f <;> simp [headerForm, formLen]

theorem ElementType.ofCode_congr {a b : Nat} (h : a % 16 = b % 16) :
    ElementType.ofCode a = ElementType.ofCode b := by
  unfold ElementType.ofCode
  rw [h]

theorem ElementType.ofCode_add_left (t : ElementType) (m : Nat) :
    ElementType.ofCode (t.code + m * 16) = t := by
  have h : (t.code + m * 16) % 16 = t.code % 16 := by
    omega
  rw [ElementType.ofCode_congr h, ElementType.ofCode_code]

/-- The encoder's finalized header is one of the five legal forms, and is
the shortest form able to carry the payload size. -/
theorem finalize_header_minimal (t : ElementType) (s : Nat) (hs : s < 2 ^ 64) :
    (∃ f : Fin 5, s ≤ formMax f ∧ finalize_header t s = headerForm f t s) ∧
      (∀ f : Fin 5, s ≤ formMax f → (finalize_header t s).length ≤ formLen f) := by
  constructor
  · unfold finalize_header
    split_ifs with h1 h2 h3 h4
    · exact ⟨0, h1, rfl⟩
    · refine ⟨1, h2, ?_⟩
      simp only [headerForm, beBytes]
      have : s % 256 = s := Nat.mod_eq_of_lt (by omega)
      simp [this]
    · exact ⟨2, h3, rfl⟩
    · exact ⟨3, h4, rfl⟩
    · exact ⟨4, by simp only [formMax]; omega, rfl⟩
  · intro f hf
    unfold finalize_header
    split_ifs with h1 h2 h3 h4 <;>
      fin_cases f <;>
      simp_all [formMax, formLen, headerForm] <;>
      omega

/-- Header-form lengths at the boundary payload sizes. -/
theorem finalize_header_boundaries (t : ElementType) :
    (finalize_header t 0).length = 1 ∧
      (finalize_header t 11).length = 1 ∧
      (finalize_header t 12).length = 2 ∧
      (finalize_header t 255).length = 2 ∧
      (finalize_header t 256).length = 3 ∧
      (finalize_header t 65535).length = 3 ∧
      (finalize_header t 65536).length = 5 ∧
      (finalize_header t 0xFFFFFFFF).length = 5 ∧
      (finalize_header t 0x100000000).length = 9 := by
  norm_num [finalize_header]

/-- One-byte headers: first byte with upper nibble at most 11. -/
theorem read_header_small (b : Nat) (hb : b / 16 ≤ 11) (rest : List Nat) :
    read_header (b :: rest) = .ok (⟨ElementType.ofCode b, b / 16⟩, rest) := by
  simp only [read_header]
  rw [if_pos (by simp [hb])]

/-- Long-form headers: first byte announcing `n` big-endian size bytes. -/
theorem read_header_ext (b n size : Nat) (tail : List Nat)
    (hn : (if b / 16 ≤ 11 then 0
        else if b / 16 = 12 then 1
        else if b / 16 = 13 then 2
        else if b / 16 = 14 then 4
        else 8) = n)
    (hpos : n ≠ 0) (hsize : size < 256 ^ n) :
    read_header (b :: (beBytes n size ++ tail)) =
      .ok (⟨ElementType.ofCode b, size⟩, tail) := by
  simp only [read_header]
  rw [hn, if_neg hpos,
    if_neg (by simp only [List.length_append, beBytes_length]; omega),
    List.take_left' (beBytes_length n size), List.drop_left' (beBytes_length n size),
    beToNat_beBytes n size hsize]

/-- `read_header` accepts every one of the five legal encodings of a
`(type, payload_size)` pair with `payload_size ≤ 11` and yields the same
header from each, consuming exactly the header bytes. -/
theorem read_header_all_forms (t : ElementType) (s : Nat) (hs : s ≤ 11)
    (f : Fin 5) (tail : List Nat) :
    read_header (headerForm f t s ++ tail) = .ok (⟨t, s⟩, tail) := by
  have hcode := ElementType.code_lt t
  fin_cases f
  · have hupper : (t.code + s * 16) / 16 = s := by omega
    have h := read_header_small (t.code + s * 16) (by omega) tail
    rw [hupper, ElementType.ofCode_add_left] at h
    exact h
  · have h := read_header_ext (t.code + 12 * 16) 1 s tail
      (by rw [if_neg (by omega), if_pos (by omega)]) (by omega) (by omega)
    rw [ElementType.ofCode_add_left] at h
    exact h
  · have h := read_header_ext (t.code + 13 * 16) 2 s tail
      (by rw [if_neg (by omega), if_neg (by omega), if_pos (by omega)]) (by omega) (by omega)
    rw [ElementType.ofCode_add_left] at h
    exact h
  · have h := read_header_ext (t.code + 14 * 16) 4 s tail
      (by rw [if_neg (by omega), if_neg (by omega), if_neg (by omega), if_pos (by omega)])
      (by omega) (by omega)
    rw [ElementType.ofCode_add_left] at h
    exact h
  · have h := read_header_ext (t.code + 15 * 16) 8 s tail
      (by rw [if_neg (by omega), if_neg (by omega), if_neg (by omega), if_neg (by omega)])
      (by omega) (by omega)
    rw [ElementType.ofCode_add_left] at h
    exact h

/-- `read_header` accepts every legal header form up to that form's size
bound, consuming exactly the header bytes. -/
theorem read_header_form_ok (f : Fin 5) (t : ElementType) (s : Nat)
    (hs : s ≤ formMax f) (tail : List Nat) :
    read_header (headerForm f t s ++ tail) = .ok (⟨t, s⟩, tail) := by
  have hcode := ElementType.code_lt t
  fin_cases f
  · simp only [formMax] at hs
    have hupper : (t.code + s * 16) / 16 = s := by omega
    have h := read_header_small (t.code + s * 16) (by omega) tail
    rw [hupper, ElementType.ofCode_add_left] at h
    exact h
  · simp only [formMax] at hs
    have h := read_header_ext (t.code + 12 * 16) 1 s tail
      (by rw [if_neg (by omega), if_pos (by omega)]) (by omega) (by norm_num; omega)
    rw [ElementType.ofCode_add_left] at h
    exact h
  · simp only [formMax] at hs
    have h := read_header_ext (t.code + 13 * 16) 2 s tail
      (by rw [if_neg (by omega), if_neg (by omega), if_pos (by omega)]) (by omega)
      (by norm_num; omega)
    rw [ElementType.ofCode_add_left] at h
    exact h
  · simp only [formMax] at hs
    have h := read_header_ext (t.code + 14 * 16) 4 s tail
      (by rw [if_neg (by omega), if_neg (by omega), if_neg (by omega), if_pos (by omega)])
      (by omega) (by norm_num; omega)
    rw [ElementType.ofCode_add_left] at h
    exact h
  · simp only [formMax] at hs
    have h := read_header_ext (t.code + 15 * 16) 8 s tail
      (by rw [if_neg (by omega), if_neg (by omega), if_neg (by omega), if_neg (by omega)])
      (by omega) (by norm_num; omega)
    rw [ElementType.ofCode_add_left] at h
    exact h

/-- Reading the header of an encoded element yields the element type and
the payload length, consuming exactly the header. -/
theorem read_header_element (t : ElementType) (p rest : List Nat)
    (hp : p.length < 2 ^ 64) :
    read_header (element t p ++ rest) = .ok (⟨t, p.length⟩, p ++ rest) := by
  obtain ⟨f, hmax, heq⟩ := (finalize_header_minimal t p.length hp).1
  show read_header (finalize_header t p.length ++ p ++ rest) = _
  rw [heq, List.append_assoc]
  exact read_header_form_ok f t p.length hmax (p ++ rest)

theorem digitsVal_append (xs : List Nat) (d : Nat) :
    digitsVal (xs ++ [d]) = digitsVal xs * 10 + (d - 48) := by
  simp [digitsVal, List.foldl_append]

theorem digitsLE_all_digits (f n : Nat) : (digitsLE f n).all isDigit = Bool.true := by
  induction f generalizing n with
  | zero => simp [digitsLE]
  | succ k ih =>
    match n with
    | 0 => simp [digitsLE]
    | m + 1 =>
      simp only [digitsLE, List.all_cons, ih, Bool.and_true]
      simp [isDigit]
      omega

theorem digitsVal_digitsLE (f n : Nat) (h : n < 10 ^ f) :
    digitsVal (digitsLE f n).reverse = n := by
  induction f generalizing n with
  | zero =>
    simp [digitsLE, digitsVal]
    omega
  | succ k ih =>
    match n with
    | 0 => simp [digitsLE, digitsVal]
    | m + 1 =>
      have hdiv : (m + 1) / 10 < 10 ^ k := by
        rw [Nat.div_lt_iff_lt_mul (by omega : 0 < 10)]
        calc m + 1 < 10 ^ (k + 1) := h
          _ = 10 ^ k * 10 := by ring
      simp only [digitsLE, List.reverse_cons, digitsVal_append, ih _ hdiv]
      omega

theorem digitsLE_getLast (f n : Nat) (hn : 0 < n) (h : n < 10 ^ f) :
    ∃ d l, digitsLE f n = l ++ [d] ∧ 49 ≤ d ∧ d ≤ 57 := by
  induction f generalizing n with
  | zero => omega
  | succ k ih =>
    match n with
    | m + 1 =>
      by_cases hq : (m + 1) / 10 = 0
      · refine ⟨(m + 1) % 10 + 48, [], ?_, by omega, by omega⟩
        simp [digitsLE, hq]
        cases k with
        | zero => rfl
        | succ j => rfl
      · have hdiv : (m + 1) / 10 < 10 ^ k := by
          rw [Nat.div_lt_iff_lt_mul (by omega : 0 < 10)]
          calc m + 1 < 10 ^ (k + 1) := h
            _ = 10 ^ k * 10 := by ring
        obtain ⟨d, l, hdl, hd1, hd2⟩ := ih ((m + 1) / 10) (by omega) hdiv
        exact ⟨d, ((m + 1) % 10 + 48) :: l, by simp [digitsLE, hdl], hd1, hd2⟩

theorem parseJsonNat_natDecimal (n : Nat) (h : n < 10 ^ 64) :
    parseJsonNat (natDecimal n) = .ok n := by
  by_cases h0 : n = 0
  · subst h0
    rfl
  · obtain ⟨d, l, hdl, hd1, hd2⟩ := digitsLE_getLast 64 n (by omega) h
    have hval := digitsVal_digitsLE 64 n h
    have hall := digitsLE_all_digits 64 n
    have hnd : natDecimal n = d :: l.reverse := by
      simp only [natDecimal, if_neg h0, hdl, List.reverse_append, List.reverse_singleton,
        List.singleton_append]
    rw [hdl, List.reverse_append, List.reverse_singleton, List.singleton_append] at hval
    rw [hdl, List.all_append] at hall
    simp only [List.all_cons, List.all_nil, Bool.and_true, Bool.and_eq_true] at hall
    rw [hnd]
    rw [parseJsonNat]
    rw [if_neg (by simp [isDigit]; omega)]
    rw [if_neg (by rintro ⟨hd48, -⟩; omega)]
    rw [if_pos (by rw [List.all_reverse]; exact hall.1)]
    rw [hval]

theorem parse_json_i64_intDecimal (i : Int) (h1 : -(2 ^ 63) ≤ i) (h2 : i < 2 ^ 63) :
    parse_json_i64 (intDecimal i) = .ok i := by
  by_cases hneg : i < 0
  · have hid : intDecimal i = 45 :: natDecimal (-i).toNat := by
      simp only [intDecimal, if_pos hneg]
    rw [hid]
    unfold parse_json_i64
    simp only [List.head?_cons, List.tail_cons]
    rw [if_pos trivial]
    rw [parseJsonNat_natDecimal (-i).toNat (by omega)]
    have hle : (-i).toNat ≤ 2 ^ 63 := by omega
    simp only [ok_bind, if_pos hle]
    show Except.ok (-((-i).toNat : Int)) = Except.ok i
    have : ((-i).toNat : Int) = -i := by omega
    rw [this, neg_neg]
  · have hid : intDecimal i = natDecimal i.toNat := by
      simp only [intDecimal, if_neg hneg]
    rw [hid]
    have hfirst : ∀ b ∈ natDecimal i.toNat, isDigit b = Bool.true := by
      intro b hb
      unfold natDecimal at hb
      split at hb
      · simp at hb
        simp [hb, isDigit]
      · rw [List.mem_reverse] at hb
        have := digitsLE_all_digits 64 i.toNat
        rw [List.all_eq_true] at this
        exact this b hb
    have hok := parseJsonNat_natDecimal i.toNat (by omega)
    have hlt : i.toNat < 2 ^ 63 := by omega
    match hm : natDecimal i.toNat with
    | [] => rw [hm] at hok; exact absurd hok (by simp [parseJsonNat])
    | b :: rest =>
      have hb : isDigit b = Bool.true := hfirst b (by rw [hm]; exact List.mem_cons_self b rest)
      have hb45 : ¬ ((b :: rest).head? = some 45) := by
        simp only [List.head?_cons, Option.some.injEq]
        simp only [isDigit, Bool.and_eq_true, decide_eq_true_eq] at hb
        omega
      rw [hm] at hok
      unfold parse_json_i64
      rw [if_neg hb45, hok]
      simp only [ok_bind, if_pos hlt]
      show Except.ok ((i.toNat : Nat) : Int) = Except.ok i
      have : (i.toNat : Int) = i := by omega
      rw [this]

theorem digitsLE_length_le (f n : Nat) : (digitsLE f n).length ≤ f := by
  induction f generalizing n with
  | zero => simp [digitsLE]
  | succ k ih =>
    match n with
    | 0 => simp [digitsLE]
    | m + 1 =>
      simp only [digitsLE, List.length_cons]
      exact Nat.succ_le_succ (ih _)

theorem natDecimal_length_le (n : Nat) : (natDecimal n).length ≤ 64 := by
  unfold natDecimal
  split
  · simp
  · simpa using digitsLE_length_le 64 n

theorem intDecimal_length_le (i : Int) : (intDecimal i).length ≤ 65 := by
  unfold intDecimal
  split
  · simp only [List.length_cons]
    have := natDecimal_length_le (-i).toNat
    omega
  · have := natDecimal_length_le i.toNat
    omega

theorem finalize_header_length_pos (t : ElementType) (s : Nat) :
    1 ≤ (finalize_header t s).length := by
  unfold finalize_header
  split_ifs <;> simp

theorem element_length_pos (t : ElementType) (p : List Nat) :
    1 ≤ (element t p).length := by
  unfold element
  simp only [List.length_append]
  have := finalize_header_length_pos t p.length
  omega

theorem read_header_element_nil (t : ElementType) (p : List Nat)
    (hp : p.length < 2 ^ 64) :
    read_header (element t p) = .ok (⟨t, p.length⟩, p) := by
  have h := read_header_element t p [] hp
  simpa using h

theorem read_json_payload_exact (t : ElementType) (p rest : List Nat) :
    read_json_payload ⟨t, p.length⟩ (p ++ rest) = .ok (p, rest) := by
  have ht : (p ++ rest).take p.length = p := List.take_left' rfl
  have hd : (p ++ rest).drop p.length = rest := List.drop_left' rfl
  unfold read_json_payload
  simp only [List.length_append]
  split_ifs with h1 h2
  · omega
  · rw [ht, hd]
  · rw [ht, hd]

theorem read_json5_payload_exact (t : ElementType) (p rest : List Nat) :
    read_json5_payload ⟨t, p.length⟩ (p ++ rest) = .ok (p, rest) := by
  have ht : (p ++ rest).take p.length = p := List.take_left' rfl
  have hd : (p ++ rest).drop p.length = rest := List.drop_left' rfl
  unfold read_json5_payload
  rw [ht, hd]

theorem parse_json5_i64_intDecimal (i : Int) (h1 : -(2 ^ 63) ≤ i) (h2 : i < 2 ^ 63) :
    parse_json5_i64 (intDecimal i) = .ok i := by
  by_cases hneg : i < 0
  · have hid : intDecimal i = 45 :: natDecimal (-i).toNat := by
      simp only [intDecimal, if_pos hneg]
    rw [hid]
    unfold parse_json5_i64
    simp only [List.head?_cons, List.tail_cons]
    rw [if_neg (by simp), if_pos trivial]
    rw [parseJsonNat_natDecimal (-i).toNat (by omega)]
    have hle : (-i).toNat ≤ 2 ^ 63 := by omega
    simp only [ok_bind, if_pos hle]
    show Except.ok (-((-i).toNat : Int)) = Except.ok i
    have : ((-i).toNat : Int) = -i := by omega
    rw [this, neg_neg]
  · have hid : intDecimal i = natDecimal i.toNat := by
      simp only [intDecimal, if_neg hneg]
    rw [hid]
    have hzr : i.toNat = 0 → natDecimal i.toNat = [48] := by
      intro h0
      rw [h0]
      rfl
    have hgt : i.toNat ≠ 0 → ∀ b rest, natDecimal i.toNat = b :: rest → 49 ≤ b ∧ b ≤ 57 := by
      intro h0 b rest hm
      obtain ⟨d, l, hdl, hd1, hd2⟩ :=
        digitsLE_getLast 64 i.toNat (by omega) (by omega)
      have : natDecimal i.toNat = d :: l.reverse := by
        simp only [natDecimal, if_neg h0, hdl, List.reverse_append,
          List.reverse_singleton, List.singleton_append]
      rw [this] at hm
      cases hm
      exact ⟨hd1, hd2⟩
    have hok := parseJsonNat_natDecimal i.toNat (by omega)
    have hlt : i.toNat < 2 ^ 63 := by omega
    match hm : natDecimal i.toNat with
    | [] => rw [hm] at hok; exact absurd hok (by simp [parseJsonNat])
    | b :: rest =>
      rw [hm] at hok
      have hbfacts : b = 48 ∧ rest = [] ∨ 49 ≤ b ∧ b ≤ 57 := by
        by_cases h0 : i.toNat = 0
        · left
          have := hzr h0
          rw [hm] at this
          cases this
          exact ⟨rfl, rfl⟩
        · right
          exact hgt h0 b rest hm
      unfold parse_json5_i64
      rw [if_neg ?h43, if_neg ?h45, if_neg ?h48]
      case h43 =>
        simp only [List.head?_cons, Option.some.injEq]
        omega
      case h45 =>
        simp only [List.head?_cons, Option.some.injEq]
        omega
      case h48 =>
        rintro ⟨hb48, hx⟩
        simp only [List.head?_cons, Option.some.injEq] at hb48
        rcases hbfacts with ⟨-, hr⟩ | ⟨hge, -⟩
        · subst hr
          simp at hx
        · omega
      rw [hok]
      simp only [ok_bind, if_pos hlt]
      show Except.ok ((i.toNat : Nat) : Int) = Except.ok i
      have : (i.toNat : Int) = i := by omega
      rw [this]

/-- The narrowing chain of the source and the spec's two-pass trial order
select the same visitor method for every `i64`. -/
theorem narrowDyn_eq_specNarrowOrder (i : Int)
    (h1 : -(2 ^ 63) ≤ i) (h2 : i < 2 ^ 63) :
    narrowDyn i = specNarrowOrder i := by
  unfold narrowDyn specNarrowOrder
  split_ifs <;> first | rfl | omega

theorem deserialize_any_int_element (i : Int)
    (h1 : -(2 ^ 63) ≤ i) (h2 : i < 2 ^ 63) :
    deserialize_any (element .int (intDecimal i)) = .ok (narrowDyn i, []) := by
  have hplen : (intDecimal i).length < 2 ^ 64 := by
    have := intDecimal_length_le i
    omega
  obtain ⟨L, hL⟩ : ∃ L, (element .int (intDecimal i)).length = L + 1 := by
    have := element_length_pos .int (intDecimal i)
    exact ⟨(element .int (intDecimal i)).length - 1, by omega⟩
  unfold deserialize_any
  rw [hL]
  simp only [decodeAny]
  rw [read_header_element_nil .int _ hplen]
  simp only [ok_bind, deserialize_any_with_header, read_integer_i64]
  have hjp : read_json_payload ⟨ElementType.int, (intDecimal i).length⟩ (intDecimal i) =
      .ok (intDecimal i, []) := by
    have := read_json_payload_exact .int (intDecimal i) []
    simpa using this
  rw [hjp]
  simp only [ok_bind]
  rw [parse_json_i64_intDecimal i h1 h2]
  simp only [ok_bind]
  unfold narrowDyn
  split_ifs <;> rfl

theorem deserialize_any_int5_element (i : Int)
    (h1 : -(2 ^ 63) ≤ i) (h2 : i < 2 ^ 63) :
    deserialize_any (element .int5 (intDecimal i)) = .ok (narrowDyn i, []) := by
  have hplen : (intDecimal i).length < 2 ^ 64 := by
    have := intDecimal_length_le i
    omega
  obtain ⟨L, hL⟩ : ∃ L, (element .int5 (intDecimal i)).length = L + 1 := by
    have := element_length_pos .int5 (intDecimal i)
    exact ⟨(element .int5 (intDecimal i)).length - 1, by omega⟩
  unfold deserialize_any
  rw [hL]
  simp only [decodeAny]
  rw [read_header_element_nil .int5 _ hplen]
  simp only [ok_bind, deserialize_any_with_header, read_integer_i64]
  have hjp : read_json5_payload ⟨ElementType.int5, (intDecimal i).length⟩ (intDecimal i) =
      .ok (intDecimal i, []) := by
    have := read_json5_payload_exact .int5 (intDecimal i) []
    simpa using this
  rw [hjp]
  simp only [ok_bind]
  rw [parse_json5_i64_intDecimal i h1 h2]
  simp only [ok_bind]
  unfold narrowDyn
  split_ifs <;> rfl

/-! ## Structural lemmas for the round-trip -/

theorem shapeDepth_pos (τ : Shape) : 1 ≤ shapeDepth τ := by
  cases τ <;> simp [shapeDepth]

theorem shapeListDepth_of_mem {τ : Shape} {τs : List Shape} (h : τ ∈ τs) :
    shapeDepth τ + 1 ≤ shapeListDepth τs := by
  induction τs with
  | nil => cases h
  | cons τ1 rest ih =>
    rcases List.mem_cons.mp h with rfl | hmem
    · simp only [shapeListDepth]
      omega
    · have := ih hmem
      simp only [shapeListDepth]
      omega

theorem fieldsDepth_of_mem {p : List Nat × Shape} {fs : List (List Nat × Shape)}
    (h : p ∈ fs) : shapeDepth p.2 + 1 ≤ fieldsDepth fs := by
  induction fs with
  | nil => cases h
  | cons q rest ih =>
    rcases List.mem_cons.mp h with rfl | hmem
    · simp only [fieldsDepth]
      omega
    · have := ih hmem
      match q with
      | (n, τ) =>
        simp only [fieldsDepth]
        omega

theorem variantsDepth_of_mem {p : List Nat × VariantShape}
    {vs : List (List Nat × VariantShape)} (h : p ∈ vs) :
    variantShapeDepth p.2 + 1 ≤ variantsDepth vs := by
  induction vs with
  | nil => cases h
  | cons q rest ih =>
    rcases List.mem_cons.mp h with rfl | hmem
    · simp only [variantsDepth]
      omega
    · have := ih hmem
      match q with
      | (n, w) =>
        simp only [variantsDepth]
        omega

theorem to_vec_eq_element_aux :
    ∀ (n : Nat) (v : Value), someDepth v ≤ n →
      to_vec v = element (encType v) (encPayload v) := by
  intro n
  induction n with
  | zero =>
    intro v hv
    cases v with
    | vBool b => cases b <;> rfl
    | vSome w => simp [someDepth] at hv
    | _ => rfl
  | succ k ih =>
    intro v hv
    cases v with
    | vBool b => cases b <;> rfl
    | vSome w =>
      show to_vec w = element (encType w) (encPayload w)
      exact ih w (by simpa [someDepth] using hv)
    | _ => rfl

/-- Every encoding is a minimal header followed by its payload. -/
theorem to_vec_eq_element (v : Value) :
    to_vec v = element (encType v) (encPayload v) :=
  to_vec_eq_element_aux (someDepth v) v le_rfl

theorem encType_null_iff_aux :
    ∀ (n : Nat) (v : Value), someDepth v ≤ n →
      (encType v = .null ↔ isNullEncoded v = Bool.true) := by
  intro n
  induction n with
  | zero =>
    intro v hv
    cases v with
    | vBool b => cases b <;> simp [encType, isNullEncoded]
    | vSome w => simp [someDepth] at hv
    | _ => simp [encType, isNullEncoded]
  | succ k ih =>
    intro v hv
    cases v with
    | vBool b => cases b <;> simp [encType, isNullEncoded]
    | vSome w =>
      show encType w = .null ↔ isNullEncoded w = Bool.true
      exact ih w (by simpa [someDepth] using hv)
    | _ => simp [encType, isNullEncoded]

/-- A value's encoding starts with a Null-typed header exactly when the
value encodes as Null. -/
theorem encType_null_iff (v : Value) :
    encType v = .null ↔ isNullEncoded v = Bool.true :=
  encType_null_iff_aux (someDepth v) v le_rfl

theorem to_vec_length_pos (v : Value) : 1 ≤ (to_vec v).length := by
  rw [to_vec_eq_element]
  exact element_length_pos _ _

theorem encPayload_length_lt (v : Value) :
    (encPayload v).length < (to_vec v).length := by
  rw [to_vec_eq_element]
  unfold element
  simp only [List.length_append]
  have := finalize_header_length_pos (encType v) (encPayload v).length
  omega

/-- Every typed decode starts by reading a header, so the empty stream is
`Error::Empty` for every target shape. -/
theorem decodeValue_nil_empty (τ : Shape) (fuel : Nat) :
    decodeValue (fuel + 1) τ [] = .error .empty := by
  cases τ <;> simp [decodeValue, read_header]

/-- `decodeValue` touches its input only through `read_header`: inputs
with the same header-read outcome decode identically. -/
theorem decodeValue_header_congr (fuel : Nat) (τ : Shape) (b1 b2 : List Nat)
    (h : read_header b1 = read_header b2) :
    decodeValue (fuel + 1) τ b1 = decodeValue (fuel + 1) τ b2 := by
  cases τ <;> simp only [decodeValue, h]

theorem read_payload_string_exact (t : ElementType) (s rest : List Nat)
    (hu : utf8Valid s = Bool.true) :
    read_payload_string ⟨t, s.length⟩ (s ++ rest) = .ok (s, rest) := by
  have ht : (s ++ rest).take s.length = s := List.take_left' rfl
  have hd : (s ++ rest).drop s.length = rest := List.drop_left' rfl
  unfold read_payload_string
  simp only [ht, hd, hu]
  simp

/-- Reading a TextRaw element's string from its encoding. -/
theorem read_string_textRaw (s rest : List Nat) (hu : utf8Valid s = Bool.true) :
    read_string ⟨.textRaw, s.length⟩ (s ++ rest) = .ok (s, rest) := by
  unfold read_string
  exact read_payload_string_exact _ s rest hu

/-- `deserialize_string` on an encoded TextRaw element. -/
theorem decodeString_element (k rest : List Nat) (hu : utf8Valid k = Bool.true)
    (hk : k.length < 2 ^ 64) :
    decodeString (element .textRaw k ++ rest) = .ok (k, rest) := by
  unfold decodeString
  rw [read_header_element .textRaw k rest hk]
  simp only [ok_bind]
  exact read_string_textRaw k rest hu

theorem parse_json_u64_natDecimal (n : Nat) (h : n < 2 ^ 64) :
    parse_json_u64 (natDecimal n) = .ok n := by
  have hok := parseJsonNat_natDecimal n (by omega)
  have hfirst : ∀ b ∈ natDecimal n, isDigit b = Bool.true := by
    intro b hb
    unfold natDecimal at hb
    split at hb
    · simp at hb
      simp [hb, isDigit]
    · rw [List.mem_reverse] at hb
      have := digitsLE_all_digits 64 n
      rw [List.all_eq_true] at this
      exact this b hb
  match hm : natDecimal n with
  | [] => rw [hm] at hok; exact absurd hok (by simp [parseJsonNat])
  | b :: rest =>
    have hb : isDigit b = Bool.true := hfirst b (by rw [hm]; exact List.mem_cons_self b rest)
    rw [hm] at hok
    unfold parse_json_u64
    rw [if_neg (by
      simp only [List.head?_cons, Option.some.injEq]
      simp only [isDigit, Bool.and_eq_true, decide_eq_true_eq] at hb
      omega)]
    rw [hok]
    simp only [ok_bind, if_pos h]
    rfl

theorem element_length_gt (t : ElementType) (p : List Nat) :
    p.length + 1 ≤ (element t p).length := by
  unfold element
  simp only [List.length_append]
  have := finalize_header_length_pos t p.length
  omega

@[simp] theorem to_vec_list_cons (e : Value) (es : List Value) :
    to_vec_list (e :: es) = to_vec e ++ to_vec_list es := rfl

@[simp] theorem to_vec_entries_cons (k : List Nat) (v : Value)
    (kvs : List (List Nat × Value)) :
    to_vec_entries ((k, v) :: kvs) = element .textRaw k ++ to_vec v ++ to_vec_entries kvs := rfl

theorem to_vec_list_mem_le {e : Value} {es : List Value} (h : e ∈ es) :
    (to_vec e).length ≤ (to_vec_list es).length := by
  induction es with
  | nil => cases h
  | cons e1 rest ih =>
    rcases List.mem_cons.mp h with rfl | hmem
    · simp
    · have := ih hmem
      simp only [to_vec_list_cons, List.length_append]
      omega

/-- The option-decoding path around a re-serialized header
(`with_header`): if a value decodes from its own encoding, it also decodes
when its minimal header is replaced by the canonical 9-byte form that
`Header::serialize` produces. -/
theorem decode_reencoded_header (v : Value) (τ : Shape) (fuel : Nat)
    (rest : List Nat) (hsz : (to_vec v).length < 2 ^ 64)
    (hpart1 : decodeValue (fuel + 1) τ (to_vec v ++ rest) = .ok (v, rest)) :
    decodeValue (fuel + 1) τ
      (Header.serializeBytes ⟨encType v, (encPayload v).length⟩ ++
        (encPayload v ++ rest)) = .ok (v, rest) := by
  have hp : (encPayload v).length < 2 ^ 64 :=
    lt_trans (encPayload_length_lt v) hsz
  have hsr : read_header (Header.serializeBytes ⟨encType v, (encPayload v).length⟩ ++
      (encPayload v ++ rest)) =
      .ok (⟨encType v, (encPayload v).length⟩, encPayload v ++ rest) := by
    show read_header (headerForm 4 (encType v) (encPayload v).length ++
      (encPayload v ++ rest)) = _
    exact read_header_form_ok 4 _ _ (by simp only [formMax]; omega) _
  rw [decodeValue_header_congr fuel τ _ _
    (hsr.trans (read_header_element _ _ rest hp).symm)]
  rw [← to_vec_eq_element v]
  exact hpart1

/-- Decoding the elements of an encoded sequence region: each element
consumes exactly its own encoding, and the exhausted region ends the
sequence normally. -/
theorem decodeSeqItems_encoded (τ : Shape) (es : List Value)
    (IH : ∀ e ∈ es, ∀ (fuel : Nat) (rest : List Nat),
      (to_vec e).length + shapeDepth τ ≤ fuel → (to_vec e).length < 2 ^ 64 →
      decodeValue fuel τ (to_vec e ++ rest) = .ok (e, rest)) :
    ∀ fuel : Nat, (to_vec_list es).length + shapeDepth τ + 1 ≤ fuel →
      (to_vec_list es).length < 2 ^ 64 →
      decodeSeqItems fuel τ (to_vec_list es) = .ok (es, []) := by
  induction es with
  | nil =>
    intro fuel hf hsz
    have hd := shapeDepth_pos τ
    obtain ⟨g, rfl⟩ : ∃ g, fuel = g + 1 + 1 := ⟨fuel - 2, by omega⟩
    show decodeSeqItems (g + 1 + 1) τ [] = .ok ([], [])
    simp [decodeSeqItems, decodeValue_nil_empty, nextElementSeed]
  | cons e es' ihl =>
    intro fuel hf hsz
    have hpos := to_vec_length_pos e
    have hlen : (to_vec_list (e :: es')).length =
        (to_vec e).length + (to_vec_list es').length := by
      simp
    obtain ⟨f, rfl⟩ : ∃ f, fuel = f + 1 := ⟨fuel - 1, by omega⟩
    have he := IH e (List.mem_cons_self e es') f (to_vec_list es')
      (by omega) (by omega)
    have hrec := ihl (fun e2 h2 => IH e2 (List.mem_cons_of_mem e h2)) f
      (by omega) (by omega)
    show decodeSeqItems (f + 1) τ (to_vec e ++ to_vec_list es') = _
    simp only [decodeSeqItems, he, nextElementSeed, ok_bind, hrec]

/-- Decoding an encoded tuple region: one element per component. -/
theorem decodeTupleItems_encoded :
    ∀ (τs : List Shape) (es : List Value),
      es.length = τs.length →
      (∀ p ∈ es.zip τs, ∀ (fuel : Nat) (rest : List Nat),
        (to_vec p.1).length + shapeDepth p.2 ≤ fuel → (to_vec p.1).length < 2 ^ 64 →
        decodeValue fuel p.2 (to_vec p.1 ++ rest) = .ok (p.1, rest)) →
      ∀ fuel : Nat, (to_vec_list es).length + shapeListDepth τs + 1 ≤ fuel →
        (to_vec_list es).length < 2 ^ 64 →
        decodeTupleItems fuel τs (to_vec_list es) = .ok (es, []) := by
  intro τs
  induction τs with
  | nil =>
    intro es hlen IH fuel hf hsz
    match es, hlen with
    | [], _ =>
      obtain ⟨f, rfl⟩ : ∃ f, fuel = f + 1 := ⟨fuel - 1, by omega⟩
      rfl
  | cons τ1 τs' ihl =>
    intro es hlen IH fuel hf hsz
    match es, hlen with
    | e :: es', hlen =>
      have hpos := to_vec_length_pos e
      have hlen2 : (to_vec_list (e :: es')).length =
          (to_vec e).length + (to_vec_list es').length := by
        simp
      have hsd : shapeListDepth (τ1 :: τs') =
          shapeDepth τ1 + shapeListDepth τs' + 1 := rfl
      obtain ⟨f, rfl⟩ : ∃ f, fuel = f + 1 := ⟨fuel - 1, by omega⟩
      have he := IH (e, τ1) (by simp) f (to_vec_list es')
        (by show (to_vec e).length + shapeDepth τ1 ≤ f; omega)
        (by show (to_vec e).length < 2 ^ 64; omega)
      have hrec := ihl es' (by simpa using hlen)
        (fun p hp => IH p (by simp [List.zip_cons_cons]; right; exact hp))
        f (by omega) (by omega)
      show decodeTupleItems (f + 1) (τ1 :: τs') (to_vec e ++ to_vec_list es') = _
      simp only [decodeTupleItems, he, nextElementSeed, ok_bind, hrec]

/-- Decoding the pairs of an encoded object region as a string-keyed map. -/
theorem decodeMapItems_encoded (τ : Shape) (kvs : List (List Nat × Value))
    (hk : ∀ p ∈ kvs, utf8Valid p.1 = Bool.true)
    (IH : ∀ p ∈ kvs, ∀ (fuel : Nat) (rest : List Nat),
      (to_vec p.2).length + shapeDepth τ ≤ fuel → (to_vec p.2).length < 2 ^ 64 →
      decodeValue fuel τ (to_vec p.2 ++ rest) = .ok (p.2, rest)) :
    ∀ fuel : Nat, (to_vec_entries kvs).length + shapeDepth τ + 1 ≤ fuel →
      (to_vec_entries kvs).length < 2 ^ 64 →
      decodeMapItems fuel τ (to_vec_entries kvs) = .ok (kvs, []) := by
  induction kvs with
  | nil =>
    intro fuel hf hsz
    obtain ⟨f, rfl⟩ : ∃ f, fuel = f + 1 := ⟨fuel - 1, by omega⟩
    show decodeMapItems (f + 1) τ [] = .ok ([], [])
    simp [decodeMapItems, decodeString, read_header, nextElementSeed]
  | cons p kvs' ihl =>
    match p with
    | (k, v) =>
      intro fuel hf hsz
      have hkey := element_length_gt .textRaw k
      have hpos := to_vec_length_pos v
      have hlen : (to_vec_entries ((k, v) :: kvs')).length =
          (element .textRaw k).length + (to_vec v).length +
            (to_vec_entries kvs').length := by
        simp
        omega
      obtain ⟨f, rfl⟩ : ∃ f, fuel = f + 1 := ⟨fuel - 1, by omega⟩
      have hks := decodeString_element k (to_vec v ++ to_vec_entries kvs')
        (hk (k, v) (List.mem_cons_self _ _)) (by omega)
      have hv := IH (k, v) (List.mem_cons_self _ _) f (to_vec_entries kvs')
        (by show (to_vec v).length + shapeDepth τ ≤ f; omega)
        (by show (to_vec v).length < 2 ^ 64; omega)
      have hrec := ihl (fun q hq => hk q (List.mem_cons_of_mem _ hq))
        (fun q hq => IH q (List.mem_cons_of_mem _ hq)) f (by omega) (by omega)
      show decodeMapItems (f + 1) τ
        (element .textRaw k ++ to_vec v ++ to_vec_entries kvs') = _
      rw [List.append_assoc]
      simp only [decodeMapItems, hks, nextElementSeed, ok_bind, hv, hrec]

theorem findField_append (fp : List (List Nat × Shape)) (k : List Nat)
    (τf : Shape) (frest : List (List Nat × Shape))
    (hnot : k ∉ fp.map Prod.fst) :
    findField (fp ++ (k, τf) :: frest) k = some (fp.length, τf) := by
  induction fp with
  | nil => simp [findField]
  | cons q fp' ih =>
    match q with
    | (n, τn) =>
      have hne : ¬ n = k := by
        simp only [List.map_cons, List.mem_cons] at hnot
        exact fun h => hnot (Or.inl h.symm)
      have ih2 := ih (by
        simp only [List.map_cons, List.mem_cons] at hnot
        exact fun h => hnot (Or.inr h))
      simp [findField, hne, ih2]

theorem findVariant_append (fp : List (List Nat × VariantShape)) (k : List Nat)
    (vsh : VariantShape) (frest : List (List Nat × VariantShape))
    (hnot : k ∉ fp.map Prod.fst) :
    findVariant (fp ++ (k, vsh) :: frest) k = some (fp.length, vsh) := by
  induction fp with
  | nil => simp [findVariant]
  | cons q fp' ih =>
    match q with
    | (n, w) =>
      have hne : ¬ n = k := by
        simp only [List.map_cons, List.mem_cons] at hnot
        exact fun h => hnot (Or.inl h.symm)
      have ih2 := ih (by
        simp only [List.map_cons, List.mem_cons] at hnot
        exact fun h => hnot (Or.inr h))
      simp [findVariant, hne, ih2]

/-- With duplicate-free variant names, lookup by name finds exactly the
member entry. -/
theorem findVariant_of_mem_nodup {n : List Nat} {vsh : VariantShape}
    {variants : List (List Nat × VariantShape)}
    (hmem : (n, vsh) ∈ variants) (hnd : (variants.map Prod.fst).Nodup) :
    ∃ i, findVariant variants n = some (i, vsh) := by
  obtain ⟨fp, frest, rfl⟩ := List.append_of_mem hmem
  have hnot : n ∉ fp.map Prod.fst := by
    rw [List.map_append, List.map_cons] at hnd
    have := List.disjoint_of_nodup_append hnd
    intro hin
    exact this hin (List.mem_cons_self _ _)
  exact ⟨fp.length, findVariant_append fp n vsh frest hnot⟩

theorem set_append_length {α : Type} (l1 l2 : List α) (a b : α) :
    (l1 ++ a :: l2).set l1.length b = l1 ++ b :: l2 := by
  induction l1 with
  | nil => rfl
  | cons x l1' ih => simp [List.set, ih]

theorem getElem?_append_length {α : Type} (l1 l2 : List α) (a : α) :
    (l1 ++ a :: l2)[l1.length]? = some a := by
  induction l1 with
  | nil => simp
  | cons x l1' ih => simpa using ih

/-- Reassembling the decoded struct fields in declaration order. -/
theorem collectFields_encoded :
    ∀ (fields : List (List Nat × Shape)) (kvs : List (List Nat × Value)),
      kvs.map Prod.fst = fields.map Prod.fst →
      collectFields fields (kvs.map (fun p => some p.2)) = .ok kvs := by
  intro fields
  induction fields with
  | nil =>
    intro kvs h
    have : kvs = [] := by
      cases kvs with
      | nil => rfl
      | cons p r => simp at h
    subst this
    rfl
  | cons fq fs ih =>
    intro kvs h
    match kvs with
    | [] => simp at h
    | (k, v) :: kvs' =>
      simp only [List.map_cons, List.cons.injEq] at h
      match fq with
      | (fn, τf) =>
        have hk : k = fn := h.1
        show collectFields ((fn, τf) :: fs) (some v :: kvs'.map (fun p => some p.2)) = _
        simp only [collectFields, ih kvs' h.2, ok_bind]
        rw [hk]

/-- Decoding the key/value pairs of an encoded struct region with the
derived struct visitor: the keys arrive in declaration order, each fills
its slot exactly once, and the exhausted region ends the visit with every
slot filled. -/
theorem decodeStructLoop_encoded (fields : List (List Nat × Shape))
    (hnd : (fields.map Prod.fst).Nodup)
    (hu : ∀ p ∈ fields, utf8Valid p.1 = Bool.true) :
    ∀ (todo : List (List Nat × Value)) (processed : List (List Nat × Value))
      (fp ftodo : List (List Nat × Shape)),
      fields = fp ++ ftodo →
      processed.length = fp.length →
      todo.map Prod.fst = ftodo.map Prod.fst →
      todo.length = ftodo.length →
      (∀ p ∈ todo.zip ftodo, ∀ (fuel : Nat) (rest : List Nat),
        (to_vec p.1.2).length + shapeDepth p.2.2 ≤ fuel →
        (to_vec p.1.2).length < 2 ^ 64 →
        decodeValue fuel p.2.2 (to_vec p.1.2 ++ rest) = .ok (p.1.2, rest)) →
      ∀ fuel : Nat,
        (to_vec_entries todo).length + fieldsDepth ftodo + 1 ≤ fuel →
        (to_vec_entries todo).length < 2 ^ 64 →
        decodeStructLoop fuel fields
          (processed.map (fun p => some p.2) ++ List.replicate ftodo.length none)
          (to_vec_entries todo) =
          .ok ((processed ++ todo).map (fun p => some p.2), []) := by
  intro todo
  induction todo with
  | nil =>
    intro processed fp ftodo hfields hplen hnames hlen hih fuel hf hsz
    have hft : ftodo = [] := by
      cases ftodo with
      | nil => rfl
      | cons q r => simp at hlen
    subst hft
    obtain ⟨f, rfl⟩ : ∃ f, fuel = f + 1 := ⟨fuel - 1, by omega⟩
    show decodeStructLoop (f + 1) fields _ [] = _
    simp [decodeStructLoop, decodeString, read_header, nextElementSeed]
  | cons e todo' ihl =>
    intro processed fp ftodo hfields hplen hnames hlen hih fuel hf hsz
    obtain ⟨k, v⟩ := e
    cases ftodo with
    | nil => simp at hlen
    | cons fq ftodo' =>
      obtain ⟨fn, τf⟩ := fq
      simp only [List.map_cons, List.cons.injEq] at hnames
      obtain ⟨hkfn, hnames'⟩ := hnames
      subst hkfn
      have hflen : fields = fp ++ (k, τf) :: ftodo' := hfields
      have hkmem : (k, τf) ∈ fields := by
        rw [hflen]
        exact List.mem_append_right _ (List.mem_cons_self _ _)
      have hkutf := hu (k, τf) hkmem
      have hkey := element_length_gt .textRaw k
      have hpos := to_vec_length_pos v
      have hentlen : (to_vec_entries ((k, v) :: todo')).length =
          (element .textRaw k).length + (to_vec v).length +
            (to_vec_entries todo').length := by
        simp
        omega
      have hfd : fieldsDepth ((k, τf) :: ftodo') =
          shapeDepth τf + fieldsDepth ftodo' + 1 := rfl
      obtain ⟨f, rfl⟩ : ∃ f, fuel = f + 1 := ⟨fuel - 1, by omega⟩
      have hks := decodeString_element k (to_vec v ++ to_vec_entries todo')
        hkutf (by omega)
      have hnotfp : k ∉ fp.map Prod.fst := by
        have hnd2 := hnd
        rw [hflen, List.map_append, List.map_cons] at hnd2
        have hdisj := List.disjoint_of_nodup_append hnd2
        intro hin
        exact hdisj hin (List.mem_cons_self _ _)
      have hff : findField fields k = some (fp.length, τf) := by
        rw [hflen]
        exact findField_append fp k τf ftodo' hnotfp
      have hacc : (processed.map (fun p => some p.2) ++
          List.replicate ((k, τf) :: ftodo').length none)[fp.length]? = some none := by
        simp only [List.length_cons, List.replicate_succ]
        have := getElem?_append_length (processed.map (fun p => some p.2))
          (List.replicate ftodo'.length none) none
        rwa [List.length_map, hplen] at this
      have hv : decodeValue f τf (to_vec v ++ to_vec_entries todo') =
          .ok (v, to_vec_entries todo') := by
        have h2 := hih ((k, v), (k, τf)) (by simp) f (to_vec_entries todo')
        exact h2 (by show (to_vec v).length + shapeDepth τf ≤ f; omega)
          (by show (to_vec v).length < 2 ^ 64; omega)
      have hset : (processed.map (fun (p : List Nat × Value) => some p.2) ++
          List.replicate ((k, τf) :: ftodo').length none).set fp.length (some v) =
          (processed ++ [(k, v)]).map (fun (p : List Nat × Value) => some p.2) ++
            List.replicate ftodo'.length none := by
        simp only [List.length_cons, List.replicate_succ]
        have := set_append_length (processed.map (fun p => some p.2))
          (List.replicate ftodo'.length none) none (some v)
        rw [List.length_map, hplen] at this
        rw [this]
        simp
      have hrec := ihl (processed ++ [(k, v)]) (fp ++ [(k, τf)]) ftodo'
        (by rw [hflen]; simp)
        (by simp [hplen])
        hnames' (by simpa using hlen)
        (fun (p : (List Nat × Value) × (List Nat × Shape)) hp =>
          hih p (List.mem_cons_of_mem _ hp))
        f (by omega) (by omega)
      show decodeStructLoop (f + 1) fields
        (processed.map (fun p => some p.2) ++
          List.replicate ((k, τf) :: ftodo').length none)
        (element .textRaw k ++ to_vec v ++ to_vec_entries todo') = _
      rw [List.append_assoc]
      simp only [decodeStructLoop, hks, nextElementSeed, ok_bind, hff, hacc, hv,
        hset, hrec]
      simp

/-- Round-trip: a shaped, well-formed value decodes from its own encoding,
consuming exactly the encoding. -/
theorem decode_to_vec {v : Value} {τ : Shape} (h : HasShape v τ) :
    ∀ (fuel : Nat) (rest : List Nat),
      (to_vec v).length + shapeDepth τ ≤ fuel →
      (to_vec v).length < 2 ^ 64 →
      decodeValue fuel τ (to_vec v ++ rest) = .ok (v, rest) := by
  induction h with
  | unit =>
    intro fuel rest hf hsz
    have hvp := to_vec_length_pos Value.vUnit
    obtain ⟨f, rfl⟩ : ∃ f, fuel = f + 1 := ⟨fuel - 1, by omega⟩
    show decodeValue (f + 1) .sUnit (element .null [] ++ rest) = _
    simp only [decodeValue]
    rw [read_header_element .null [] rest (by norm_num)]
    simp [read_null, drop_payload]
  | bool b =>
    intro fuel rest hf hsz
    have hvp := to_vec_length_pos (Value.vBool b)
    obtain ⟨f, rfl⟩ : ∃ f, fuel = f + 1 := ⟨fuel - 1, by omega⟩
    cases b
    · show decodeValue (f + 1) .sBool (element .false [] ++ rest) = _
      simp only [decodeValue]
      rw [read_header_element .false [] rest (by norm_num)]
      simp [read_bool, drop_payload]
    · show decodeValue (f + 1) .sBool (element .true [] ++ rest) = _
      simp only [decodeValue]
      rw [read_header_element .true [] rest (by norm_num)]
      simp [read_bool, drop_payload]
  | i64 i h1 h2 =>
    intro fuel rest hf hsz
    have hvp := to_vec_length_pos (Value.vI64 i)
    obtain ⟨f, rfl⟩ : ∃ f, fuel = f + 1 := ⟨fuel - 1, by omega⟩
    have hplen : (intDecimal i).length < 2 ^ 64 := by
      have := intDecimal_length_le i
      omega
    show decodeValue (f + 1) .sI64 (element .int (intDecimal i) ++ rest) = _
    simp only [decodeValue]
    rw [read_header_element .int _ rest hplen]
    simp only [ok_bind, read_integer_i64]
    rw [read_json_payload_exact .int (intDecimal i) rest]
    simp only [ok_bind]
    rw [parse_json_i64_intDecimal i h1 h2]
    rfl
  | u64 n hn =>
    intro fuel rest hf hsz
    have hvp := to_vec_length_pos (Value.vU64 n)
    obtain ⟨f, rfl⟩ : ∃ f, fuel = f + 1 := ⟨fuel - 1, by omega⟩
    have hplen : (natDecimal n).length < 2 ^ 64 := by
      have := natDecimal_length_le n
      omega
    show decodeValue (f + 1) .sU64 (element .int (natDecimal n) ++ rest) = _
    simp only [decodeValue]
    rw [read_header_element .int _ rest hplen]
    simp only [ok_bind, read_integer_u64]
    rw [read_json_payload_exact .int (natDecimal n) rest]
    simp only [ok_bind]
    rw [parse_json_u64_natDecimal n hn]
    rfl
  | char c hc =>
    intro fuel rest hf hsz
    have hvp := to_vec_length_pos (Value.vChar c)
    obtain ⟨f, rfl⟩ : ∃ f, fuel = f + 1 := ⟨fuel - 1, by omega⟩
    have hcl : utf8EncodeChar c = [c] := by
      unfold utf8EncodeChar
      rw [if_pos hc]
    have hu : utf8Valid [c] = Bool.true := by
      show (if c ≤ 0x7F then utf8Valid [] else _) = Bool.true
      rw [if_pos (by omega : c ≤ 0x7F)]
      rfl
    show decodeValue (f + 1) .sChar (element .textRaw (utf8EncodeChar c) ++ rest) = _
    rw [hcl]
    simp only [decodeValue]
    rw [read_header_element .textRaw [c] rest (by norm_num)]
    simp only [ok_bind]
    rw [show ([c] : List Nat).length = [c].length from rfl]
    rw [read_string_textRaw [c] rest hu]
    rfl
  | str s hu =>
    intro fuel rest hf hsz
    have hvp := to_vec_length_pos (Value.vStr s)
    obtain ⟨f, rfl⟩ : ∃ f, fuel = f + 1 := ⟨fuel - 1, by omega⟩
    have hsl : s.length < 2 ^ 64 := by
      have := element_length_gt .textRaw s
      have : (to_vec (.vStr s)).length = (element .textRaw s).length := rfl
      omega
    show decodeValue (f + 1) .sStr (element .textRaw s ++ rest) = _
    simp only [decodeValue]
    rw [read_header_element .textRaw s rest hsl]
    simp only [ok_bind]
    rw [read_string_textRaw s rest hu]
    rfl
  | none τ =>
    intro fuel rest hf hsz
    have hvp := to_vec_length_pos Value.vNone
    obtain ⟨f, rfl⟩ : ∃ f, fuel = f + 1 := ⟨fuel - 1, by omega⟩
    show decodeValue (f + 1) (.sOption τ) (element .null [] ++ rest) = _
    simp only [decodeValue]
    rw [read_header_element .null [] rest (by norm_num)]
    simp
  | some w τ hw hnn ih =>
    intro fuel rest hf hsz
    have hdp := shapeDepth_pos τ
    have hvp := to_vec_length_pos w
    have hf2 : (to_vec w).length + shapeDepth τ + 1 ≤ fuel := by
      have : shapeDepth (.sOption τ) = shapeDepth τ + 1 := rfl
      have h3 : (to_vec (Value.vSome w)).length = (to_vec w).length := rfl
      omega
    obtain ⟨f, rfl⟩ : ∃ f, fuel = f + 1 := ⟨fuel - 1, by omega⟩
    have hsz2 : (to_vec w).length < 2 ^ 64 := hsz
    have hp : (encPayload w).length < 2 ^ 64 :=
      lt_trans (encPayload_length_lt w) hsz2
    have hrh : read_header (to_vec w ++ rest) =
        .ok (⟨encType w, (encPayload w).length⟩, encPayload w ++ rest) := by
      conv_lhs => rw [to_vec_eq_element w]
      exact read_header_element _ _ _ hp
    show decodeValue (f + 1) (.sOption τ) (to_vec w ++ rest) = _
    simp only [decodeValue, hrh, ok_bind]
    rw [if_neg (by
      intro hh
      have : isNullEncoded w = Bool.true := (encType_null_iff w).mp hh
      rw [hnn] at this
      cases this)]
    obtain ⟨g, rfl⟩ : ∃ g, f = g + 1 := ⟨f - 1, by omega⟩
    have hchild := decode_reencoded_header w τ g rest hsz2
      (ih (g + 1) rest (by omega) hsz2)
    rw [hchild]
    rfl
  | arr es τ hmem ih =>
    intro fuel rest hf hsz
    have hlt := element_length_gt .array (to_vec_list es)
    have hel : (to_vec (Value.vArr es)).length = (element .array (to_vec_list es)).length := rfl
    have hP : (to_vec_list es).length < 2 ^ 64 := by omega
    obtain ⟨f, rfl⟩ : ∃ f, fuel = f + 1 := ⟨fuel - 1, by omega⟩
    show decodeValue (f + 1) (.sSeq τ) (element .array (to_vec_list es) ++ rest) = _
    simp only [decodeValue]
    rw [read_header_element .array _ rest hP]
    simp only [ok_bind]
    have htake : (to_vec_list es ++ rest).take (to_vec_list es).length = to_vec_list es :=
      List.take_left' rfl
    have hdrop : (to_vec_list es ++ rest).drop (to_vec_list es).length = rest :=
      List.drop_left' rfl
    rw [htake, hdrop]
    rw [decodeSeqItems_encoded τ es ih f
      (by have : shapeDepth (.sSeq τ) = shapeDepth τ + 1 := rfl; omega) hP]
    simp
  | tup es τs hlen hmem ih =>
    intro fuel rest hf hsz
    have hlt := element_length_gt .array (to_vec_list es)
    have hel : (to_vec (Value.vTup es)).length = (element .array (to_vec_list es)).length := rfl
    have hP : (to_vec_list es).length < 2 ^ 64 := by omega
    obtain ⟨f, rfl⟩ : ∃ f, fuel = f + 1 := ⟨fuel - 1, by omega⟩
    show decodeValue (f + 1) (.sTuple τs) (element .array (to_vec_list es) ++ rest) = _
    simp only [decodeValue]
    rw [read_header_element .array _ rest hP]
    simp only [ok_bind]
    have htake : (to_vec_list es ++ rest).take (to_vec_list es).length = to_vec_list es :=
      List.take_left' rfl
    have hdrop : (to_vec_list es ++ rest).drop (to_vec_list es).length = rest :=
      List.drop_left' rfl
    rw [htake, hdrop]
    rw [decodeTupleItems_encoded τs es hlen ih f
      (by have : shapeDepth (.sTuple τs) = shapeListDepth τs + 1 := rfl; omega) hP]
    simp
  | map kvs τ hk hv ih =>
    intro fuel rest hf hsz
    have hlt := element_length_gt .object (to_vec_entries kvs)
    have hel : (to_vec (Value.vMap kvs)).length =
      (element .object (to_vec_entries kvs)).length := rfl
    have hP : (to_vec_entries kvs).length < 2 ^ 64 := by omega
    obtain ⟨f, rfl⟩ : ∃ f, fuel = f + 1 := ⟨fuel - 1, by omega⟩
    show decodeValue (f + 1) (.sMap τ) (element .object (to_vec_entries kvs) ++ rest) = _
    simp only [decodeValue]
    rw [read_header_element .object _ rest hP]
    simp only [ok_bind]
    have htake : (to_vec_entries kvs ++ rest).take (to_vec_entries kvs).length =
        to_vec_entries kvs := List.take_left' rfl
    have hdrop : (to_vec_entries kvs ++ rest).drop (to_vec_entries kvs).length = rest :=
      List.drop_left' rfl
    rw [htake, hdrop]
    rw [decodeMapItems_encoded τ kvs hk ih f
      (by have : shapeDepth (.sMap τ) = shapeDepth τ + 1 := rfl; omega) hP]
    simp
  | struct kvs fields hn hnd hu hlen hv ih =>
    intro fuel rest hf hsz
    have hlt := element_length_gt .object (to_vec_entries kvs)
    have hel : (to_vec (Value.vStruct kvs)).length =
      (element .object (to_vec_entries kvs)).length := rfl
    have hP : (to_vec_entries kvs).length < 2 ^ 64 := by omega
    obtain ⟨f, rfl⟩ : ∃ f, fuel = f + 1 := ⟨fuel - 1, by omega⟩
    show decodeValue (f + 1) (.sStruct fields)
      (element .object (to_vec_entries kvs) ++ rest) = _
    simp only [decodeValue]
    rw [read_header_element .object _ rest hP]
    simp only [ok_bind]
    have htake : (to_vec_entries kvs ++ rest).take (to_vec_entries kvs).length =
        to_vec_entries kvs := List.take_left' rfl
    have hdrop : (to_vec_entries kvs ++ rest).drop (to_vec_entries kvs).length = rest :=
      List.drop_left' rfl
    rw [htake, hdrop]
    have hloop := decodeStructLoop_encoded fields hnd hu kvs [] [] fields rfl rfl hn
      hlen ih f
      (by have : shapeDepth (.sStruct fields) = fieldsDepth fields + 1 := rfl; omega) hP
    simp only [List.map_nil, List.nil_append] at hloop
    rw [hloop]
    simp only [ok_bind]
    rw [collectFields_encoded fields kvs hn]
    simp
  | enumUnit n variants hmem hnd huu =>
    intro fuel rest hf hsz
    have hvp := to_vec_length_pos (Value.vEnumUnit n)
    have hnl : n.length < 2 ^ 64 := by
      have := element_length_gt .textRaw n
      have : (to_vec (Value.vEnumUnit n)).length = (element .textRaw n).length := rfl
      omega
    obtain ⟨f, rfl⟩ : ∃ f, fuel = f + 1 := ⟨fuel - 1, by omega⟩
    show decodeValue (f + 1) (.sEnum variants) (element .textRaw n ++ rest) = _
    simp only [decodeValue]
    rw [read_header_element .textRaw n rest hnl]
    simp only [ok_bind]
    rw [read_string_textRaw n rest huu]
    obtain ⟨i, hfv⟩ := findVariant_of_mem_nodup hmem hnd
    simp only [ok_bind, hfv]
  | enumNewtype n w τ variants hmem hnd huu hw ih =>
    intro fuel rest hf hsz
    have hkl := element_length_gt .textRaw n
    have hwp := to_vec_length_pos w
    have hPdef : (to_vec (Value.vEnumNewtype n w)).length =
      (element .object (element .textRaw n ++ to_vec w)).length := rfl
    have hol := element_length_gt .object (element .textRaw n ++ to_vec w)
    have hP : (element .textRaw n ++ to_vec w).length < 2 ^ 64 := by omega
    have happlen : (element .textRaw n ++ to_vec w).length =
        (element .textRaw n).length + (to_vec w).length := by simp
    have hnl : n.length < 2 ^ 64 := by omega
    have hvd := variantsDepth_of_mem hmem
    simp only [variantShapeDepth] at hvd
    have hje : shapeDepth (.sEnum variants) = variantsDepth variants + 1 := rfl
    obtain ⟨g, rfl⟩ : ∃ g, fuel = g + 1 + 1 + 1 := ⟨fuel - 3, by omega⟩
    show decodeValue (g + 1 + 1 + 1) (.sEnum variants)
      (element .object (element .textRaw n ++ to_vec w) ++ rest) = _
    simp only [decodeValue]
    rw [read_header_element .object _ rest hP]
    simp only [ok_bind]
    have htake : ((element .textRaw n ++ to_vec w) ++ rest).take
        (element .textRaw n ++ to_vec w).length = element .textRaw n ++ to_vec w :=
      List.take_left' rfl
    have hdrop : ((element .textRaw n ++ to_vec w) ++ rest).drop
        (element .textRaw n ++ to_vec w).length = rest :=
      List.drop_left' rfl
    rw [htake, hdrop]
    rw [read_header_element .textRaw n (to_vec w) hnl]
    simp only [ok_bind]
    rw [read_string_textRaw n (to_vec w) huu]
    obtain ⟨i, hfv⟩ := findVariant_of_mem_nodup hmem hnd
    simp only [ok_bind, hfv]
    have hchild : decodeValue (g + 1) τ (to_vec w ++ []) = .ok (w, []) :=
      ih (g + 1) [] (by omega) (by omega)
    rw [List.append_nil] at hchild
    simp only [decodeVariantData, hchild, ok_bind]
    simp
  | enumTuple n vs τs variants hmem hnd huu hlen hv ih =>
    intro fuel rest hf hsz
    have hkl := element_length_gt .textRaw n
    have hal := element_length_gt .array (to_vec_list vs)
    have hPdef : (to_vec (Value.vEnumTuple n vs)).length =
      (element .object (element .textRaw n ++ element .array (to_vec_list vs))).length := rfl
    have hol := element_length_gt .object
      (element .textRaw n ++ element .array (to_vec_list vs))
    have happlen : (element .textRaw n ++ element .array (to_vec_list vs)).length =
        (element .textRaw n).length + (element .array (to_vec_list vs)).length := by simp
    have hP : (element .textRaw n ++ element .array (to_vec_list vs)).length < 2 ^ 64 := by
      omega
    have hnl : n.length < 2 ^ 64 := by omega
    have hLl : (to_vec_list vs).length < 2 ^ 64 := by omega
    have hvd := variantsDepth_of_mem hmem
    simp only [variantShapeDepth] at hvd
    have hje : shapeDepth (.sEnum variants) = variantsDepth variants + 1 := rfl
    obtain ⟨g, rfl⟩ : ∃ g, fuel = g + 1 + 1 + 1 := ⟨fuel - 3, by omega⟩
    show decodeValue (g + 1 + 1 + 1) (.sEnum variants)
      (element .object (element .textRaw n ++ element .array (to_vec_list vs)) ++ rest) = _
    simp only [decodeValue]
    rw [read_header_element .object _ rest hP]
    simp only [ok_bind]
    have htake : ((element .textRaw n ++ element .array (to_vec_list vs)) ++ rest).take
        (element .textRaw n ++ element .array (to_vec_list vs)).length =
        element .textRaw n ++ element .array (to_vec_list vs) := List.take_left' rfl
    have hdrop : ((element .textRaw n ++ element .array (to_vec_list vs)) ++ rest).drop
        (element .textRaw n ++ element .array (to_vec_list vs)).length = rest :=
      List.drop_left' rfl
    rw [htake, hdrop]
    rw [read_header_element .textRaw n (element .array (to_vec_list vs)) hnl]
    simp only [ok_bind]
    rw [read_string_textRaw n (element .array (to_vec_list vs)) huu]
    obtain ⟨i, hfv⟩ := findVariant_of_mem_nodup hmem hnd
    simp only [ok_bind, hfv]
    simp only [decodeVariantData]
    rw [show element .array (to_vec_list vs) = element .array (to_vec_list vs) ++ []
      from (List.append_nil _).symm]
    rw [read_header_element .array (to_vec_list vs) [] hLl]
    simp only [ok_bind]
    have htake2 : (to_vec_list vs ++ []).take (to_vec_list vs).length = to_vec_list vs :=
      List.take_left' rfl
    have hdrop2 : (to_vec_list vs ++ []).drop (to_vec_list vs).length = [] :=
      List.drop_left' rfl
    rw [htake2, hdrop2]
    rw [decodeTupleItems_encoded τs vs hlen ih (g + 1) (by omega) hLl]
    simp
  | enumStruct n kvs fields variants hmem hnd huu hfn hfnd hfu hlen hv ih =>
    intro fuel rest hf hsz
    have hkl := element_length_gt .textRaw n
    have hol2 := element_length_gt .object (to_vec_entries kvs)
    have hPdef : (to_vec (Value.vEnumStruct n kvs)).length =
      (element .object (element .textRaw n ++ element .object (to_vec_entries kvs))).length := rfl
    have hol := element_length_gt .object
      (element .textRaw n ++ element .object (to_vec_entries kvs))
    have happlen : (element .textRaw n ++ element .object (to_vec_entries kvs)).length =
        (element .textRaw n).length + (element .object (to_vec_entries kvs)).length := by simp
    have hP : (element .textRaw n ++ element .object (to_vec_entries kvs)).length < 2 ^ 64 := by
      omega
    have hnl : n.length < 2 ^ 64 := by omega
    have hLl : (to_vec_entries kvs).length < 2 ^ 64 := by omega
    have hvd := variantsDepth_of_mem hmem
    simp only [variantShapeDepth] at hvd
    have hje : shapeDepth (.sEnum variants) = variantsDepth variants + 1 := rfl
    obtain ⟨g, rfl⟩ : ∃ g, fuel = g + 1 + 1 + 1 := ⟨fuel - 3, by omega⟩
    show decodeValue (g + 1 + 1 + 1) (.sEnum variants)
      (element .object (element .textRaw n ++ element .object (to_vec_entries kvs)) ++ rest) = _
    simp only [decodeValue]
    rw [read_header_element .object _ rest hP]
    simp only [ok_bind]
    have htake : ((element .textRaw n ++ element .object (to_vec_entries kvs)) ++ rest).take
        (element .textRaw n ++ element .object (to_vec_entries kvs)).length =
        element .textRaw n ++ element .object (to_vec_entries kvs) := List.take_left' rfl
    have hdrop : ((element .textRaw n ++ element .object (to_vec_entries kvs)) ++ rest).drop
        (element .textRaw n ++ element .object (to_vec_entries kvs)).length = rest :=
      List.drop_left' rfl
    rw [htake, hdrop]
    rw [read_header_element .textRaw n (element .object (to_vec_entries kvs)) hnl]
    simp only [ok_bind]
    rw [read_string_textRaw n (element .object (to_vec_entries kvs)) huu]
    obtain ⟨i, hfv⟩ := findVariant_of_mem_nodup hmem hnd
    simp only [ok_bind, hfv]
    simp only [decodeVariantData]
    rw [show element .object (to_vec_entries kvs) = element .object (to_vec_entries kvs) ++ []
      from (List.append_nil _).symm]
    rw [read_header_element .object (to_vec_entries kvs) [] hLl]
    simp only [ok_bind]
    have htake2 : (to_vec_entries kvs ++ []).take (to_vec_entries kvs).length =
        to_vec_entries kvs := List.take_left' rfl
    have hdrop2 : (to_vec_entries kvs ++ []).drop (to_vec_entries kvs).length = [] :=
      List.drop_left' rfl
    rw [htake2, hdrop2]
    have hloop := decodeStructLoop_encoded fields hfnd hfu kvs [] [] fields rfl rfl hfn
      hlen ih (g + 1) (by omega) hLl
    simp only [List.map_nil, List.nil_append] at hloop
    rw [hloop]
    simp only [ok_bind]
    rw [collectFields_encoded fields kvs hfn]
    simp

/-! ## Claim theorems (part 1) -/

/-- C9: encoding the boolean `true` produces exactly the single byte
`0x01` and `false` exactly `0x02` (`serialize_bool`, ser.rs:166-173);
encoding the 64-bit integer `1234567890123456789` produces exactly the
header bytes `0xC3 0x13` followed by the 19 ASCII digits
(`serialize_i64`, ser.rs:187-189). -/
theorem c9_concrete_scalar_encodings :
    to_vec (.vBool Bool.true) = [0x01] ∧
    to_vec (.vBool Bool.false) = [0x02] ∧
    to_vec (.vI64 1234567890123456789) =
      [0xC3, 0x13, 49, 50, 51, 52, 53, 54, 55, 56, 57, 48,
        49, 50, 51, 52, 53, 54, 55, 56, 57] := by
  refine ⟨rfl, rfl, ?_⟩
  decide

/-- C10: `serialize_newtype_struct` (ser.rs:269-275) ignores the wrapped
value and calls `serialize_unit`, so every newtype struct encodes as the
single Null byte `0x00`, whatever the wrapped value is. -/
theorem c10_newtype_struct_encodes_as_null (v : Value) :
    to_vec (.vNewtypeStruct v) = [0x00] := rfl

/-- C3 (evidence of the divergence): for an element with type code 0xF and
a 4-byte little-endian IEEE-754 payload — exactly the bytes ser.rs's own
`test_serialize_binary_float` produces for `1.0f32` — the decoder fails
with `UnexpectedType` on every path: `read_float` (de.rs:215-226) has no
BinaryFloat arm, `deserialize_f64` therefore rejects the element, and
`deserialize_any_with_header` (de.rs:275-279) treats code 0xF as a
reserved code. -/
theorem c3_binary_float_payload_rejected :
    element .binaryFloat [0x00, 0x00, 0x80, 0x3F] = [0x4F, 0x00, 0x00, 0x80, 0x3F] ∧
    read_float ⟨.binaryFloat, 4⟩ [0x00, 0x00, 0x80, 0x3F] =
      .error (.unexpectedType .binaryFloat) ∧
    deserialize_f64 [0x4F, 0x00, 0x00, 0x80, 0x3F] =
      .error (.unexpectedType .binaryFloat) ∧
    deserialize_any [0x4F, 0x00, 0x00, 0x80, 0x3F] =
      .error (.unexpectedType .binaryFloat) :=
  ⟨rfl, rfl, rfl, rfl⟩

/-- C2: for every element the encoder finalizes, the header is one of the
five legal forms and the shortest that can carry the payload size, with
the boundary sizes 0, 11, 12, 255, 256, 65535, 65536, 0xFFFFFFFF and
0x100000000 selecting header lengths 1, 1, 2, 2, 3, 3, 5, 5 and 9; and for
every element type and payload size at most 11, `read_header` returns the
same header from each of the five encodings, consuming exactly the header
bytes. -/
theorem c2_header_minimality_and_five_forms (t : ElementType) (s : Nat)
    (hs : s < 2 ^ 64) :
    ((∃ f : Fin 5, s ≤ formMax f ∧ finalize_header t s = headerForm f t s) ∧
      (∀ f : Fin 5, s ≤ formMax f → (finalize_header t s).length ≤ formLen f)) ∧
    ((finalize_header t 0).length = 1 ∧
      (finalize_header t 11).length = 1 ∧
      (finalize_header t 12).length = 2 ∧
      (finalize_header t 255).length = 2 ∧
      (finalize_header t 256).length = 3 ∧
      (finalize_header t 65535).length = 3 ∧
      (finalize_header t 65536).length = 5 ∧
      (finalize_header t 0xFFFFFFFF).length = 5 ∧
      (finalize_header t 0x100000000).length = 9) ∧
    (∀ s2 ≤ 11, ∀ f : Fin 5, ∀ tail : List Nat,
      read_header (headerForm f t s2 ++ tail) = .ok (⟨t, s2⟩, tail)) :=
  ⟨finalize_header_minimal t s hs, finalize_header_boundaries t,
    fun s2 hs2 f tail => read_header_all_forms t s2 hs2 f tail⟩

/-- Witness for `c2_header_minimality_and_five_forms`: the 19-byte payload
of `1234567890123456789` selects the 2-byte header form, and the value 5
decodes identically from the 3-byte form. -/
theorem c2_header_witness :
    (finalize_header ElementType.int 19).length = 2 ∧
    read_header (headerForm 2 ElementType.int 5 ++ [0x31]) =
      .ok (⟨ElementType.int, 5⟩, [0x31]) := by
  have h := c2_header_minimality_and_five_forms ElementType.int 19 (by norm_num)
  refine ⟨?_, h.2.2 5 (by norm_num) 2 [0x31]⟩
  have hmin := h.1.2 1 (by norm_num [formMax])
  have hex := h.1.1
  decide

/-- C6: a header read on an exhausted stream is `Error::Empty`
(de.rs:71-74); at top level this surfaces to the caller of `from_slice`
for every target shape, since every decode path starts by reading a
header; inside a bounded sub-reader `next_element_seed` converts exactly
the `Empty` outcome of the next child element into the normal
end-of-sequence signal `Ok(None)` — an exhausted sequence region ends the
traversal normally — while an `Ok` child is passed through as `Some` and
every other error propagates unchanged. -/
theorem c6_empty_is_context_dependent :
    read_header ([] : List Nat) = .error .empty ∧
    (∀ τ : Shape, from_slice τ [] = .error .empty) ∧
    (∀ (τ : Shape) (fuel : Nat), decodeValue (fuel + 1) τ [] = .error .empty) ∧
    (∀ (τ : Shape) (fuel : Nat), decodeSeqItems (fuel + 2) τ [] = .ok ([], [])) ∧
    (∀ v : Value × List Nat, nextElementSeed (.ok v) = .ok (some v)) ∧
    nextElementSeed (α := Value × List Nat) (.error .empty) = .ok none ∧
    (∀ e : Error, e ≠ .empty →
      nextElementSeed (α := Value × List Nat) (.error e) = .error e) := by
  have hval : ∀ (τ : Shape) (fuel : Nat), decodeValue (fuel + 1) τ [] = .error .empty := by
    intro τ fuel
    cases τ <;> simp [decodeValue, read_header]
  refine ⟨rfl, ?_, hval, ?_, fun v => rfl, rfl, ?_⟩
  · intro τ
    show from_slice τ [] = .error .empty
    unfold from_slice decode_fuel
    simp only [List.length_nil, Nat.zero_add]
    rw [hval τ (shapeDepth τ)]
    rfl
  · intro τ fuel
    simp [decodeSeqItems, hval τ fuel, nextElementSeed]
  · intro e he
    cases e <;> first | rfl | exact absurd rfl he

/-- Witness for `c6_empty_is_context_dependent` at concrete inputs. -/
theorem c6_empty_witness :
    from_slice .sBool [] = .error .empty ∧
    nextElementSeed (α := Value × List Nat) (.error .trailingCharacters) =
      .error .trailingCharacters :=
  ⟨c6_empty_is_context_dependent.2.1 .sBool,
    c6_empty_is_context_dependent.2.2.2.2.2.2 .trailingCharacters (by decide)⟩

/-- C7: for every Int or Int5 element decoded in open-ended any-value
mode, the parsed `i64` is delivered to the visitor at the width given by
the spec's trial order — unsigned 8/16/32/64-bit first, then signed
8/16/32/64-bit, first fit — and the source's interleaved `try_from` chain
(`narrowDyn`) agrees with that order on the whole `i64` range. -/
theorem c7_any_mode_integer_narrowing (i : Int)
    (h1 : -(2 ^ 63) ≤ i) (h2 : i < 2 ^ 63) :
    deserialize_any (to_vec (.vI64 i)) = .ok (specNarrowOrder i, []) ∧
    deserialize_any (element .int5 (intDecimal i)) = .ok (specNarrowOrder i, []) ∧
    narrowDyn i = specNarrowOrder i := by
  have hn := narrowDyn_eq_specNarrowOrder i h1 h2
  refine ⟨?_, ?_, hn⟩
  · have h := deserialize_any_int_element i h1 h2
    rw [hn] at h
    exact h
  · have h := deserialize_any_int5_element i h1 h2
    rw [hn] at h
    exact h

/-- Witness for `c7_any_mode_integer_narrowing`: 300 fits neither `u8` nor
`i8` (nor, in the spec order, `u8`), so both orders deliver it as `u16`;
-5 is delivered as `i8`. -/
theorem c7_narrowing_witness :
    deserialize_any (to_vec (.vI64 300)) = .ok (.dU16 300, []) ∧
    deserialize_any (to_vec (.vI64 (-5))) = .ok (.dI8 (-5), []) := by
  constructor
  · rw [(c7_any_mode_integer_narrowing 300 (by norm_num) (by norm_num)).1]
    rfl
  · rw [(c7_any_mode_integer_narrowing (-5) (by norm_num) (by norm_num)).1]
    rfl

/-- C8: `to_vec` propagates a serialization error to the caller with `?`
(ser.rs:38), but `to_vec_with_options` calls `.unwrap()` on the serialize
result (ser.rs:47) and therefore panics instead of returning the error;
only successful serializations are returned. -/
theorem c8_to_vec_with_options_unwraps :
    to_vec_surface (.error (.message "serialization failed")) =
      .returns (.error (.message "serialization failed")) ∧
    to_vec_with_options_surface (.error (.message "serialization failed")) =
      .panicked ∧
    (∀ v : Value, to_vec_with_options_surface (.ok (to_vec v)) =
      .returns (.ok (to_vec v))) :=
  ⟨rfl, rfl, fun _ => rfl⟩

/-- A value's encoding decodes at the entry fuel `from_slice` supplies,
regardless of the bytes that follow it. -/
theorem decode_entry_fuel {v : Value} {τ : Shape} (h : HasShape v τ)
    (hsz : (to_vec v).length < 2 ^ 64) (extra : List Nat) :
    decodeValue (decode_fuel τ (to_vec v ++ extra)) τ (to_vec v ++ extra) =
      .ok (v, extra) :=
  decode_to_vec h _ extra
    (by simp only [decode_fuel, List.length_append]; omega) hsz

/-- Inside an enum variant's bounded Object region, bytes left over after
the variant value are rejected with `TrailingCharacters` (de.rs:492-496). -/
theorem enum_newtype_region_trailing
    (n : List Nat) (w : Value) (τ : Shape)
    (variants : List (List Nat × VariantShape))
    (hmem : (n, .vsNewtype τ) ∈ variants)
    (hnd : (variants.map Prod.fst).Nodup)
    (huu : utf8Valid n = Bool.true)
    (hw : HasShape w τ)
    (hsz : (to_vec w).length < 2 ^ 64)
    (extra : List Nat) (hex : extra ≠ [])
    (hP : (element .textRaw n ++ (to_vec w ++ extra)).length < 2 ^ 64) :
    ∀ fuel : Nat,
      (element .textRaw n ++ (to_vec w ++ extra)).length +
        shapeDepth (.sEnum variants) + 1 ≤ fuel →
      decodeValue fuel (.sEnum variants)
        (element .object (element .textRaw n ++ (to_vec w ++ extra))) =
        .error .trailingCharacters := by
  intro fuel hf
  have hkl := element_length_gt .textRaw n
  have hwp := to_vec_length_pos w
  have hvd := variantsDepth_of_mem hmem
  simp only [variantShapeDepth] at hvd
  have hje : shapeDepth (.sEnum variants) = variantsDepth variants + 1 := rfl
  have happlen : (element .textRaw n ++ (to_vec w ++ extra)).length =
      (element .textRaw n).length + ((to_vec w).length + extra.length) := by
    simp
  have hnl : n.length < 2 ^ 64 := by omega
  obtain ⟨g, rfl⟩ : ∃ g, fuel = g + 1 + 1 + 1 := ⟨fuel - 3, by omega⟩
  rw [show element .object (element .textRaw n ++ (to_vec w ++ extra)) =
    element .object (element .textRaw n ++ (to_vec w ++ extra)) ++ []
    from (List.append_nil _).symm]
  simp only [decodeValue]
  rw [read_header_element .object _ [] hP]
  simp only [ok_bind]
  have htake : ((element .textRaw n ++ (to_vec w ++ extra)) ++ []).take
      (element .textRaw n ++ (to_vec w ++ extra)).length =
      element .textRaw n ++ (to_vec w ++ extra) := List.take_left' rfl
  rw [htake]
  rw [read_header_element .textRaw n (to_vec w ++ extra) hnl]
  simp only [ok_bind]
  rw [read_string_textRaw n (to_vec w ++ extra) huu]
  obtain ⟨i, hfv⟩ := findVariant_of_mem_nodup hmem hnd
  simp only [ok_bind, hfv]
  have hchild : decodeValue (g + 1) τ (to_vec w ++ extra) = .ok (w, extra) :=
    decode_to_vec hw (g + 1) extra (by omega) hsz
  simp only [decodeVariantData, hchild, ok_bind]
  rw [if_neg hex]

/-- C1 (amended): the round-trip identity `from_slice (to_vec v) = Ok v`
holds for every well-formed shaped value — integers in their Rust ranges,
valid-UTF-8 strings and names, duplicate-free field and variant names —
PROVIDED the char is ASCII and no `Some` wraps a value whose encoding is
the Null byte; the original universal claim is refuted by
`c1_roundtrip_counterexample`. -/
theorem c1_round_trip_wellformed (v : Value) (τ : Shape)
    (h : HasShape v τ) (hsz : (to_vec v).length < 2 ^ 64) :
    from_slice τ (to_vec v) = .ok v := by
  have hd := decode_entry_fuel h hsz []
  rw [List.append_nil] at hd
  simp [from_slice, hd]

/-- C1 counterexample: two supported structured values that do not
round-trip. `Some(())` encodes as the Null byte, which decodes as `None`;
the non-ASCII char `é` (U+00E9) encodes as two UTF-8 bytes, and the char
decoder rejects any string whose byte length is not 1. -/
theorem c1_roundtrip_counterexample :
    from_slice (.sOption .sUnit) (to_vec (.vSome .vUnit)) = .ok .vNone ∧
    Value.vSome .vUnit ≠ Value.vNone ∧
    from_slice .sChar (to_vec (.vChar 233)) =
      .error (.message "invalid string length for char") := by
  refine ⟨rfl, fun hx => ?_, rfl⟩
  cases hx

/-- C1 witness: the amended round-trip theorem at `Some(true)`. -/
theorem c1_roundtrip_witness :
    from_slice (.sOption .sBool) (to_vec (.vSome (.vBool Bool.true))) =
      .ok (.vSome (.vBool Bool.true)) :=
  c1_round_trip_wellformed _ _
    (HasShape.some _ _ (HasShape.bool Bool.true) rfl) (by decide)

/-- C4 (amended): the encoder maps a unit variant to a bare Text element
holding the variant name, a newtype variant to an Object pairing the name
with the field's own encoding, a tuple variant to an Object pairing the
name with an Array, and a struct variant to an Object pairing the name
with an Object; decoding inverts these shapes for well-formed enum values
(the original unconditional inversion is refuted by
`c4_enum_counterexample`); and bytes left inside the variant's bounded
Object region after the variant value fail with `TrailingCharacters`. -/
theorem c4_enum_shapes_and_trailing
    (m : List Nat) (v1 : Value) (vs : List Value)
    (kvs : List (List Nat × Value))
    (v : Value) (variants : List (List Nat × VariantShape))
    (h : HasShape v (.sEnum variants)) (hsz : (to_vec v).length < 2 ^ 64)
    (n : List Nat) (w : Value) (τ : Shape)
    (hmem : (n, .vsNewtype τ) ∈ variants)
    (hnd : (variants.map Prod.fst).Nodup)
    (huu : utf8Valid n = Bool.true)
    (hw : HasShape w τ) (hwsz : (to_vec w).length < 2 ^ 64)
    (extra : List Nat) (hex : extra ≠ [])
    (hP : (element .textRaw n ++ (to_vec w ++ extra)).length < 2 ^ 64) :
    to_vec (.vEnumUnit m) = element .textRaw m ∧
    to_vec (.vEnumNewtype m v1) =
      element .object (element .textRaw m ++ to_vec v1) ∧
    to_vec (.vEnumTuple m vs) =
      element .object (element .textRaw m ++ element .array (to_vec_list vs)) ∧
    to_vec (.vEnumStruct m kvs) =
      element .object (element .textRaw m ++ element .object (to_vec_entries kvs)) ∧
    from_slice (.sEnum variants) (to_vec v) = .ok v ∧
    from_slice (.sEnum variants)
      (element .object (element .textRaw n ++ (to_vec w ++ extra))) =
      .error .trailingCharacters := by
  refine ⟨rfl, rfl, rfl, rfl, ?_, ?_⟩
  · have hd := decode_entry_fuel h hsz []
    rw [List.append_nil] at hd
    simp [from_slice, hd]
  · have hgt := element_length_gt .object (element .textRaw n ++ (to_vec w ++ extra))
    have ht := enum_newtype_region_trailing n w τ variants hmem hnd huu hw hwsz
      extra hex hP
      (decode_fuel (.sEnum variants)
        (element .object (element .textRaw n ++ (to_vec w ++ extra))))
      (by simp only [decode_fuel]; omega)
    simp [from_slice, ht]

/-- C4 counterexample: the newtype-variant shape does not invert in
general — a variant wrapping `Some(())` decodes back as the same variant
wrapping `None`, because the field's Null encoding is ambiguous. -/
theorem c4_enum_counterexample :
    from_slice (.sEnum [([65], .vsNewtype (.sOption .sUnit))])
      (to_vec (.vEnumNewtype [65] (.vSome .vUnit))) =
      .ok (.vEnumNewtype [65] .vNone) ∧
    Value.vEnumNewtype [65] (.vSome .vUnit) ≠
      Value.vEnumNewtype [65] .vNone := by
  refine ⟨rfl, fun hx => ?_⟩
  injection hx with h1 h2
  cases h2

/-- C4 witness: the enum-shape theorem at a one-variant enum, with the
name `C`, a boolean newtype field, and one stray byte in the region. -/
theorem c4_enum_witness :
    to_vec (.vEnumUnit [67]) = element .textRaw [67] ∧
    to_vec (.vEnumNewtype [67] (.vBool Bool.false)) =
      element .object (element .textRaw [67] ++ to_vec (.vBool Bool.false)) ∧
    to_vec (.vEnumTuple [67] []) =
      element .object (element .textRaw [67] ++ element .array (to_vec_list [])) ∧
    to_vec (.vEnumStruct [67] []) =
      element .object (element .textRaw [67] ++
        element .object (to_vec_entries [])) ∧
    from_slice (.sEnum [([66], .vsNewtype .sBool)])
      (to_vec (.vEnumNewtype [66] (.vBool Bool.true))) =
      .ok (.vEnumNewtype [66] (.vBool Bool.true)) ∧
    from_slice (.sEnum [([66], .vsNewtype .sBool)])
      (element .object (element .textRaw [66] ++
        (to_vec (.vBool Bool.false) ++ [0]))) =
      .error .trailingCharacters :=
  c4_enum_shapes_and_trailing [67] (.vBool Bool.false) [] []
    (.vEnumNewtype [66] (.vBool Bool.true)) [([66], .vsNewtype .sBool)]
    (HasShape.enumNewtype [66] (.vBool Bool.true) .sBool _
      (List.Mem.head _) (by decide) (by decide) (HasShape.bool Bool.true))
    (by decide) [66] (.vBool Bool.false) .sBool (List.Mem.head _)
    (by decide) (by decide) (HasShape.bool Bool.false) (by decide)
    [0] (by decide) (by decide)

/-- C5: a complete top-level value followed by at least one extra byte is
rejected by both `from_slice` and `from_reader` with
`TrailingCharacters`, and both succeed when no bytes remain. -/
theorem c5_trailing_data_rejection (v : Value) (τ : Shape)
    (h : HasShape v τ) (hsz : (to_vec v).length < 2 ^ 64)
    (extra : List Nat) (hex : extra ≠ []) :
    from_slice τ (to_vec v ++ extra) = .error .trailingCharacters ∧
    from_reader τ (to_vec v ++ extra) = .error .trailingCharacters ∧
    from_slice τ (to_vec v) = .ok v ∧
    from_reader τ (to_vec v) = .ok v := by
  have hd := decode_entry_fuel h hsz extra
  have hd0 := decode_entry_fuel h hsz []
  rw [List.append_nil] at hd0
  obtain ⟨x, xs, rfl⟩ : ∃ x xs, extra = x :: xs := by
    cases extra with
    | nil => exact absurd rfl hex
    | cons x xs => exact ⟨x, xs, rfl⟩
  exact ⟨by simp [from_slice, hd], by simp [from_reader, hd],
    by simp [from_slice, hd0], by simp [from_reader, hd0]⟩

/-- C5 witness: the trailing-rejection theorem at the integer 7 with one
stray byte. -/
theorem c5_trailing_witness :
    from_slice .sI64 (to_vec (.vI64 7) ++ [0]) =
      .error .trailingCharacters ∧
    from_reader .sI64 (to_vec (.vI64 7) ++ [0]) =
      .error .trailingCharacters ∧
    from_slice .sI64 (to_vec (.vI64 7)) = .ok (.vI64 7) ∧
    from_reader .sI64 (to_vec (.vI64 7)) = .ok (.vI64 7) :=
  c5_trailing_data_rejection _ _
    (HasShape.i64 7 (by decide) (by decide)) (by decide) [0] (by decide)

end SqliteJsonb
